import Mathlib

set_option maxHeartbeats 1000000
set_option maxRecDepth 4096

/-!
Verification development for the LDC statement-lowering stage
(`gen/statements.cpp`).  The lowering engine converts a tree of
high-level statements into a control-flow graph of basic blocks.  We give
a shallow embedding of its state (block list, current insertion point,
cleanup stack, loop-target stack, catch stack, shared-return data) and of
the individual `ToIRVisitor::visit` methods, and prove the claimed
invariants and functional properties about them.

The ScopeStack implementation itself (pushCleanup / runCleanups /
popCleanups / breakToClosest / ...) is not part of the sources at hand,
only its call sites are; those operations are modelled from the spec
(section 4.2) and are marked as such in their doc comments.
-/

namespace LdcStatements

/-- Non-terminator instructions appended to a basic block.  Expression
lowering is opaque in the source, so emitted expression code is a tagged
marker; the copy of a cleanup body emitted on an exit path is
`cleanupCode id`. -/
inductive Instr where
  | cleanupCode (id : Nat)
  | stmtCode (tag : Nat)
  | storeRet (slot : Nat)
  | icmpEq (caseVal condVal : Int)
  | enterCatch
  | throwCall
  | pgoCounter (tag : Nat)
deriving DecidableEq, Repr

/-- Terminating (control-transfer) instructions.  Runtime values produced
by the opaque expression lowering are embedded into the comparison and
switch terminators so that the dispatch semantics of the emitted graph can
be evaluated. -/
inductive Term where
  | retInstr
  | retVoid
  | br (target : Nat)
  | condBr (a b : Int) (ifEq ifNe : Nat)
  | switchI (scrut : Int) (cases : List (Int × Nat)) (dflt : Nat)
  | unreachableI
deriving DecidableEq, Repr

/-- Basic block: appended instructions plus appended terminators.  LLVM's
builder API physically appends a terminator even to a block that already
has one (invalid IR, but mechanically possible), so terminators form a
list; a block is "terminated" when that list is non-empty. -/
structure BB where
  instrs : List Instr
  terms : List Term
deriving DecidableEq, Repr

/-- Cleanup entry of the scope stack: its identity (used by the trace),
the block holding the cleanup's code (`finallybb` at the push site), and
the block that was current when it was registered. -/
structure Cleanup where
  id : Nat
  beginBB : Nat
  endBB : Nat
deriving DecidableEq, Repr

/-- Loop/break target entry: the identity of the loop statement, its
continue block (absent for pure break targets such as switch), its break
block, and the cleanup depth recorded at entry. -/
structure LoopTarget where
  stmtId : Nat
  continueBB : Option Nat
  breakBB : Nat
  depth : Nat
deriving DecidableEq, Repr

/-- Catch-scope entry: exception class identifier and handler block. -/
structure CatchE where
  classId : Nat
  bb : Nat
deriving DecidableEq, Repr

/-- Trace events recording the scope-stack operations and opaque
statement lowerings in the order they are performed. -/
inductive Ev where
  | pushCleanup (id : Nat)
  | runCleanup (id : Nat)
  | popCleanup (id : Nat)
  | pushCatch (classId : Nat) (bb : Nat)
  | popCatch
  | lowered (tag : Nat)
deriving DecidableEq, Repr

/-- Lowering state: the block graph built so far (block ids are list
indices), the current insertion point, the scope/catch/loop-target
stacks, and the lazily created shared return block and slot of the
enclosing function. -/
structure St where
  blocks : List BB
  cur : Nat
  cleanups : List Cleanup
  nextCleanupId : Nat
  loopTargets : List LoopTarget
  catchScopes : List CatchE
  retBlock : Option Nat
  retValSlot : Option Nat
  nextSlot : Nat
  trace : List Ev
deriving DecidableEq, Repr

/-- Update the element at index `i` of a list. -/
def updAt {α : Type} : List α → Nat → (α → α) → List α
  | [], _, _ => []
  | a :: as, 0, f => f a :: as
  | a :: as, i + 1, f => a :: updAt as i f

/-- Read a block of the graph (empty block when out of range). -/
def getBlock (s : St) (b : Nat) : BB :=
  s.blocks.getD b ⟨[], []⟩

/-- Create a fresh (empty, appendable) basic block; its id is the next
list index.  Models `llvm::BasicBlock::Create`. -/
def newBB (s : St) : Nat × St :=
  (s.blocks.length, { s with blocks := s.blocks ++ [⟨[], []⟩] })

/-- Make block `b` the current insertion point.  Models
`irs->scope() = IRScope(b)`. -/
def setScope (b : Nat) (s : St) : St :=
  { s with cur := b }

/-- Append a non-terminator instruction to the current block. -/
def appendInstr (i : Instr) (s : St) : St :=
  { s with blocks := updAt s.blocks s.cur (fun bb => { bb with instrs := bb.instrs ++ [i] }) }

/-- Append a terminator to the current block. -/
def terminateWith (t : Term) (s : St) : St :=
  { s with blocks := updAt s.blocks s.cur (fun bb => { bb with terms := bb.terms ++ [t] }) }

/-- Model of `irs->scopereturned()`: the current block already has a
terminator. -/
def scopereturned (s : St) : Bool :=
  !(getBlock s s.cur).terms.isEmpty

/-- Append a trace event. -/
def emitEv (e : Ev) (s : St) : St :=
  { s with trace := s.trace ++ [e] }

/-- Model of `ScopeStack::currentCleanupScope()`: the cleanup cursor is
the current depth of the cleanup stack. -/
def currentCleanupScope (s : St) : Nat :=
  s.cleanups.length

/-- Model of `ScopeStack::pushCleanup(beginBB, endBB)`: append a cleanup
entry (with a fresh identity) to the stack. -/
def pushCleanup (beginBB endBB : Nat) (s : St) : St :=
  { s with
    cleanups := ⟨s.nextCleanupId, beginBB, endBB⟩ :: s.cleanups,
    nextCleanupId := s.nextCleanupId + 1,
    trace := s.trace ++ [.pushCleanup s.nextCleanupId] }

/-- Modelled from the spec: `ScopeStack::popCleanups(downTo)` removes the
entries above the cursor without emitting any code (the ScopeStack
implementation is not among the sources at hand). -/
def popCleanups (downTo : Nat) (s : St) : St :=
  let n := s.cleanups.length - downTo
  { s with
    cleanups := s.cleanups.drop n,
    trace := s.trace ++ (s.cleanups.take n).map (fun c => .popCleanup c.id) }

/-- Emission of one cleanup on an exit path: chain into a fresh block
holding the cleanup's code (one step of `runCleanups` below). -/
def runCleanupStep (st : St) (c : Cleanup) : St :=
  let (b, st) := newBB st
  let st := terminateWith (.br b) st
  let st := setScope b st
  let st := appendInstr (.cleanupCode c.id) st
  emitEv (.runCleanup c.id) st

/-- Modelled from the spec: `ScopeStack::runCleanups(downTo, target)`
emits, in innermost-first order, the code of every cleanup above the
cursor, chaining each into a fresh block, and finally branches into
`target` (the ScopeStack implementation is not among the sources at
hand). -/
def runCleanups (downTo : Nat) (target : Nat) (s : St) : St :=
  let toRun := s.cleanups.take (s.cleanups.length - downTo)
  terminateWith (.br target) (toRun.foldl runCleanupStep s)

/-- Model of `ScopeStack::runAllCleanups(target)`. -/
def runAllCleanups (target : Nat) (s : St) : St :=
  runCleanups 0 target s

/-- Model of `ScopeStack::pushLoopTarget(stmt, continuebb, breakbb)`:
records the loop with the cleanup depth at entry. -/
def pushLoopTarget (stmtId contBB breakBB : Nat) (s : St) : St :=
  { s with loopTargets := ⟨stmtId, some contBB, breakBB, s.cleanups.length⟩ :: s.loopTargets }

/-- Model of `ScopeStack::pushBreakTarget(stmt, breakbb)` used by switch
statements: a target with no continue block. -/
def pushBreakTarget (stmtId breakBB : Nat) (s : St) : St :=
  { s with loopTargets := ⟨stmtId, none, breakBB, s.cleanups.length⟩ :: s.loopTargets }

/-- Model of `ScopeStack::popLoopTarget()` / `popBreakTarget()`. -/
def popLoopTarget (s : St) : St :=
  { s with loopTargets := s.loopTargets.tail }

/-- Modelled from the spec: `ScopeStack::breakToClosest()` looks up the
innermost loop/break target, runs the cleanups down to the depth recorded
at its entry and branches to its break block (left unchanged when the
stack is empty — the real implementation raises a compile error there). -/
def breakToClosest (s : St) : St :=
  match s.loopTargets.head? with
  | none => s
  | some t => runCleanups t.depth t.breakBB s

/-- Modelled from the spec: `ScopeStack::breakToStatement(target)` finds
the loop target registered for the given statement identity. -/
def breakToStatement (tid : Nat) (s : St) : St :=
  match s.loopTargets.find? (fun t => t.stmtId == tid) with
  | none => s
  | some t => runCleanups t.depth t.breakBB s

/-- Modelled from the spec: `ScopeStack::continueWithClosest()` finds the
innermost target that has a continue block (switch break targets have
none), runs the cleanups down to its depth and branches to its continue
block. -/
def continueWithClosest (s : St) : St :=
  match s.loopTargets.find? (fun t => t.continueBB.isSome) with
  | none => s
  | some t =>
    match t.continueBB with
    | none => s
    | some c => runCleanups t.depth c s

/-- Modelled from the spec: `ScopeStack::continueWithLoop(target)`. -/
def continueWithLoop (tid : Nat) (s : St) : St :=
  match s.loopTargets.find? (fun t => t.stmtId == tid && t.continueBB.isSome) with
  | none => s
  | some t =>
    match t.continueBB with
    | none => s
    | some c => runCleanups t.depth c s

/-- Model of `ScopeStack::pushCatch(classInfo, bb, weights)` (weights are
profile data, elided). -/
def pushCatch (classId bb : Nat) (s : St) : St :=
  { s with
    catchScopes := ⟨classId, bb⟩ :: s.catchScopes,
    trace := s.trace ++ [.pushCatch classId bb] }

/-- Model of `ScopeStack::popCatch()`. -/
def popCatch (s : St) : St :=
  { s with catchScopes := s.catchScopes.tail, trace := s.trace ++ [.popCatch] }

/-- Model of `ToIRVisitor::visit(ExpStatement)`: the expression lowering
is opaque; it appends opaque code to the current block (and a trace
marker). -/
def visitExpStatement (tag : Nat) (s : St) : St :=
  emitEv (.lowered tag) (appendInstr (.stmtCode tag) s)

/-- Model of the tail of `ToIRVisitor::visit(ReturnStatement)` (the
computation of the return value is opaque expression lowering;
`hasVal` is "returnValue != null").  If cleanups are pending the value is
stored to the lazily created shared slot, all cleanups run chaining into
the lazily created shared return block, and the final return instruction
is emitted only when that block is first created; otherwise the return
instruction is emitted directly.  In all cases a fresh predecessor-less
dummy block becomes the current insertion point. -/
def visitReturn (hasVal : Bool) (s : St) : St :=
  let useRetValSlot := currentCleanupScope s != 0
  let sharedRetBlockExists := s.retBlock.isSome
  let s :=
    if useRetValSlot then
      let s :=
        if !sharedRetBlockExists then
          let (rb, s) := newBB s
          let s := { s with retBlock := some rb }
          if hasVal then
            { s with retValSlot := some s.nextSlot, nextSlot := s.nextSlot + 1 }
          else s
        else s
      let s := if hasVal then appendInstr (.storeRet (s.retValSlot.getD 0)) s else s
      let s := runAllCleanups (s.retBlock.getD 0) s
      setScope (s.retBlock.getD 0) s
    else s
  let s :=
    if !useRetValSlot || !sharedRetBlockExists then
      if hasVal then terminateWith .retInstr s else terminateWith .retVoid s
    else s
  let (bb, s) := newBB s
  setScope bb s

/-- Model of `ToIRVisitor::visit(BreakStatement)`: when the current block
is already terminated the statement is ignored entirely; otherwise the
labelled or closest break target is taken and a fresh block becomes
current. -/
def visitBreak (ident : Option Nat) (s : St) : St :=
  if scopereturned s then s
  else
    let s :=
      match ident with
      | some tid => breakToStatement tid s
      | none => breakToClosest s
    let (bb, s) := newBB s
    setScope bb s

/-- Model of `ToIRVisitor::visit(ContinueStatement)`: no guard on an
already-terminated block; the labelled or closest continue target is
taken and a fresh block becomes current. -/
def visitContinue (ident : Option Nat) (s : St) : St :=
  let s :=
    match ident with
    | some tid => continueWithLoop tid s
    | none => continueWithClosest s
  let (bb, s) := newBB s
  setScope bb s

/-- Model of `ToIRVisitor::visit(TryFinallyStatement)`.  Child statement
lowerings are passed as functions on the state (the recursive
`accept` calls); absent bodies are `none`.  With both bodies present: the
finally body is lowered first into a fresh block, pushed as a single
cleanup, then the try body is lowered in the old block; if the try body
falls through, the cleanups down to the pre-try depth are run into a
fresh success block; finally the pushed cleanups are popped. -/
def visitTryFinally (body finalbody : Option (St → St)) (s : St) : St :=
  match body, finalbody with
  | none, none => s
  | some b, none => b s
  | none, some f => f s
  | some b, some f =>
    let trybb := s.cur
    let (finallybb, s) := newBB s
    let s := setScope finallybb s
    let s := f s
    let cleanupBefore := currentCleanupScope s
    let s := pushCleanup finallybb s.cur s
    let s := setScope trybb s
    let s := b s
    let s :=
      if !scopereturned s then
        let (successbb, s) := newBB s
        let s := runCleanups cleanupBefore successbb s
        setScope successbb s
      else s
    popCleanups cleanupBefore s

/-- Catch clause of a try/catch statement: exception class identifier and
the (opaque, possibly absent) lowering of its handler body. -/
structure CatchClause where
  classId : Nat
  handler : Option (St → St)

/-- Model of the catch-body loop of `ToIRVisitor::visit(TryCatchStatement)`
(explicit landing-pad strategy): the clauses are processed in the order given
(the caller passes them in reverse source order, matching the
`rbegin`/`rend` iteration); each gets a fresh block where the
enter-catch runtime call and its handler are lowered, branching to
`endbb` on fallthrough.  Returns the collected catch blocks in
processing order. -/
def lowerCatchBodies (endbb : Nat) : List CatchClause → St → List CatchE × St
  | [], s => ([], s)
  | c :: rest, s =>
    let (catchBB, s) := newBB s
    let s := setScope catchBB s
    let s := appendInstr .enterCatch s
    let s :=
      match c.handler with
      | some h => h s
      | none => s
    let s := if !scopereturned s then terminateWith (.br endbb) s else s
    let (cbs, s) := lowerCatchBodies endbb rest s
    (⟨c.classId, catchBB⟩ :: cbs, s)

/-- Model of the catch-scope registration loop of
`ToIRVisitor::visit(TryCatchStatement)`: only after all catch bodies have
been emitted, push each collected catch block. -/
def registerCatchScopes (cbs : List CatchE) (s : St) : St :=
  cbs.foldl (fun s cb => pushCatch cb.classId cb.bb s) s

/-- Model of `ToIRVisitor::visit(TryCatchStatement)` (explicit
landing-pad strategy): lower every catch body (iterating the catches in
reverse source order), then register the catch scopes, then lower the try
body in the old block, branch to the end block on fallthrough, pop one
catch scope per catch, and continue in the end block. -/
def visitTryCatch (body : St → St) (catches : List CatchClause) (s : St) : St :=
  let trybb := s.cur
  let (endbb, s) := newBB s
  let (catchBlocks, s) := lowerCatchBodies endbb catches.reverse s
  let s := registerCatchScopes catchBlocks s
  let s := setScope trybb s
  let s := body s
  let s := if !scopereturned s then terminateWith (.br endbb) s else s
  let s := (List.range catchBlocks.length).foldl (fun s _ => popCatch s) s
  setScope endbb s

/-- Model of `ToIRVisitor::visit(ThrowStatement)`: evaluate and raise the
thrown object (opaque runtime call), emit an unreachable terminator, and
make a fresh block current. -/
def visitThrow (s : St) : St :=
  let s := appendInstr .throwCall s
  let s := terminateWith .unreachableI s
  let (bb, s) := newBB s
  setScope bb s

/-- Modelled from the spec: `DtoGoto` (defined outside the sources at
hand) branches to the label's block after running the cleanups down to
the label's recorded depth when the label is already known, and to a
fresh placeholder block (patched later) otherwise. -/
def dtoGoto (labelBB : Option Nat) (labelDepth : Nat) (s : St) : St :=
  match labelBB with
  | some b => runCleanups labelDepth b s
  | none =>
    let (p, s) := newBB s
    terminateWith (.br p) s

/-- Model of `ToIRVisitor::visit(GotoStatement)`: delegate to `DtoGoto`,
then make a fresh block current. -/
def visitGoto (labelBB : Option Nat) (labelDepth : Nat) (s : St) : St :=
  let s := dtoGoto labelBB labelDepth s
  let (bb, s) := newBB s
  setScope bb s

/-- Model of `ToIRVisitor::visit(GotoCaseStatement)`: lazily create the
target case's body block if it has none yet, branch to it directly (the
enclosing-handler/cleanup processing is disabled in the source), and make
a fresh block current.  Returns the possibly updated `cs->bodyBB`
alongside the state. -/
def visitGotoCase (csBodyBB : Option Nat) (s : St) : Option Nat × St :=
  let (target, s) :=
    match csBodyBB with
    | none => let (b, s) := newBB s; (b, s)
    | some b => (b, s)
  let s := terminateWith (.br target) s
  let (bb, s) := newBB s
  (some target, setScope bb s)

/-- Model of `ToIRVisitor::visit(GotoDefaultStatement)`: branch directly
to the default body block (the enclosing-handler/cleanup processing is
disabled in the source) and make a fresh block current. -/
def visitGotoDefault (defaultBodyBB : Nat) (s : St) : St :=
  let s := terminateWith (.br defaultBodyBB) s
  let (bb, s) := newBB s
  setScope bb s

/-- Model of `ToIRVisitor::visit(ImportStatement)`: empty, a silent
no-op. -/
def visitImport (s : St) : St :=
  s

/-- Model of `ToIRVisitor::visit(OnScopeStatement)`: an internal compiler
error followed by `fatal()` — lowering of the statement produces no
blocks, only an abort. -/
def visitOnScopeStatement (_s : St) : Except String St :=
  .error "Internal Compiler Error: OnScopeStatement should have been lowered by frontend."

/-- Model of the fallback `ToIRVisitor::visit(Statement)`: a
not-implemented error followed by `fatal()`. -/
def visitStatementFallback (_s : St) : Except String St :=
  .error "Statement type Statement not implemented"

/-- Model of `ToIRVisitor::visit(PragmaStatement)`: a not-implemented
error followed by `fatal()`. -/
def visitPragmaStatement (_s : St) : Except String St :=
  .error "Statement type PragmaStatement not implemented"

/-- Model of the inner loop of `ToIRVisitor::visit(UnrolledLoopStatement)`:
the children are paired with their pre-created blocks; each child is
lowered in its own block under a loop target whose continue block is the
next child's block (the end block for the last child) and whose break
block is the end block, falling through to the next block when the child
does not terminate. -/
def lowerUnrolledChildren (stmtId endbb : Nat) : List ((St → St) × Nat) → St → St
  | [], s => s
  | (f, thisbb) :: rest, s =>
    let nextbb :=
      match rest with
      | [] => endbb
      | (_, nb) :: _ => nb
    let s := setScope thisbb s
    let s := pushLoopTarget stmtId nextbb endbb s
    let s := f s
    let s := popLoopTarget s
    let s := if !scopereturned s then terminateWith (.br nextbb) s else s
    lowerUnrolledChildren stmtId endbb rest s

/-- Model of `ToIRVisitor::visit(UnrolledLoopStatement)`: nothing for an
empty list; otherwise one fresh block per child plus an end block, a
branch into the first child's block, the children lowered by
`lowerUnrolledChildren`, and the end block becoming current. -/
def visitUnrolledLoop (stmtId : Nat) (children : List (St → St)) (s : St) : St :=
  match children with
  | [] => s
  | _ :: _ =>
    let n := children.length
    let base := s.blocks.length
    let s := (List.range n).foldl (fun s _ => (newBB s).2) s
    let (endbb, s) := newBB s
    let s := if !scopereturned s then terminateWith (.br base) s else s
    let s := lowerUnrolledChildren stmtId endbb
      (children.zip ((List.range n).map (fun i => base + i))) s
    let s := if !scopereturned s then terminateWith (.br endbb) s else s
    setScope endbb s

/-- Case label expression, as far as the switch lowering inspects it: an
integer constant, a string constant, or a variable reference together
with the properties the strategy choice tests (`vd->_init`,
`vd->isConst()`) and the runtime value the opaque expression lowering
would produce for it. -/
inductive CaseExp where
  | intConst (v : Int)
  | strConst (sv : String)
  | varExp (hasInit isConst : Bool) (v : Int)
deriving DecidableEq, Repr

/-- Test performed per case by the strategy-choice loop of
`ToIRVisitor::visit(SwitchStatement)`: a case is non-constant when its
expression is a variable reference whose declaration has no initializer
or is not const. -/
def caseNonConst : CaseExp → Bool
  | .varExp hasInit isConst _ => !hasInit || !isConst
  | _ => false

/-- Model of the strategy-choice loop of
`ToIRVisitor::visit(SwitchStatement)`: `useSwitchInst` starts true and is
set to false for every non-constant case encountered. -/
def computeUseSwitchInst (cases : List CaseExp) : Bool :=
  cases.foldl (fun acc c => if caseNonConst c then false else acc) true

/-- Modelled from the spec: compile-time constancy of a case label, as
the spec words it (to be compared with the strategy-choice test of the
source) — every label that is not an unresolvable variable reference. -/
def isCompileTimeConstant (c : CaseExp) : Bool :=
  match c with
  | .varExp hasInit isConst _ => hasInit && isConst
  | _ => true

/-- Runtime value of a case label (constants evaluate to themselves; for
variable references the opaque expression lowering supplies the value,
stored into `cs->llvmIdx`). -/
def caseRuntimeVal : CaseExp → Int
  | .intConst v => v
  | .strConst _ => 0
  | .varExp _ _ v => v

/-- Model of the per-case body of the linear-compare loop of
`ToIRVisitor::visit(SwitchStatement)` (the branch taken when `switch`
instructions cannot be used): for each case, emit the equality comparison
in the current check block, create the next check block, and emit the
conditional branch to the case body (or its profiling counter block) on
match and to the next check block on mismatch; after the last case,
branch to the default target. -/
def lowerLinearCases (genProf : Bool) (condVal : Int) (defaultjumptarget : Nat) :
    List (Int × Nat) → St → St
  | [], s => terminateWith (.br defaultjumptarget) s
  | (v, bodyBB) :: rest, s =>
    let s := appendInstr (.icmpEq v condVal) s
    let (nextbb, s) := newBB s
    let (casejumptarget, s) :=
      if genProf then
        let (casecntr, s) := newBB s
        let save := s.cur
        let s := setScope casecntr s
        let s := appendInstr (.pgoCounter bodyBB) s
        let s := terminateWith (.br bodyBB) s
        let s := setScope save s
        (casecntr, s)
      else (bodyBB, s)
    let s := terminateWith (.condBr v condVal casejumptarget nextbb) s
    let s := setScope nextbb s
    lowerLinearCases genProf condVal defaultjumptarget rest s

/-- Model of the linear-compare dispatch of
`ToIRVisitor::visit(SwitchStatement)`: create the first check block,
branch into it from the current block, compute the default jump target
(the default block if present, the end block otherwise, behind a
profiling counter block when instrumenting), and emit the chain of
comparisons in source order. -/
def lowerSwitchLinear (genProf : Bool) (condVal : Int) (cases : List (Int × Nat))
    (defbb : Option Nat) (endbb : Nat) (s : St) : St :=
  let (nextbb, s) := newBB s
  let s := terminateWith (.br nextbb) s
  let (defaultjumptarget, s) :=
    if genProf then
      let (defaultcntr, s) := newBB s
      let save := s.cur
      let s := setScope defaultcntr s
      let s := appendInstr (.pgoCounter (defbb.getD endbb)) s
      let s := terminateWith (.br (defbb.getD endbb)) s
      let s := setScope save s
      (defaultcntr, s)
    else (defbb.getD endbb, s)
  let s := setScope nextbb s
  lowerLinearCases genProf condVal defaultjumptarget cases s

/-- Model of the table dispatch of `ToIRVisitor::visit(SwitchStatement)`
without instrumentation: a single multi-way branch on the controlling
value, with one case per source case (keyed by its `llvmIdx`) and the
default block (or the end block when no default exists) as the fallback
target. -/
def lowerSwitchTable (condVal : Int) (pairs : List (Int × Nat))
    (defbb : Option Nat) (endbb : Nat) (s : St) : St :=
  terminateWith (.switchI condVal pairs (defbb.getD endbb)) s

/-- Model of `struct Case` of `gen/statements.cpp`: a string case
expression together with its original position in the case list. -/
structure SCase where
  str : String
  index : Nat
deriving DecidableEq, Repr

/-- Model of `StringExp::compare` via `memcmp` over the character data:
the first differing character decides, otherwise the length difference
does. -/
def memcmpChars : List Char → List Char → Int
  | [], [] => 0
  | [], _ :: bs => -(bs.length + 1 : Int)
  | _ :: as, [] => (as.length + 1 : Int)
  | a :: as, b :: bs => if a = b then memcmpChars as bs else (a.toNat : Int) - (b.toNat : Int)

/-- String comparison used to order the case array. -/
def strCmp (a b : String) : Int :=
  memcmpChars a.data b.data

/-- Model of `operator<(const Case&, const Case&)`. -/
def caseLt (l r : SCase) : Bool :=
  strCmp l.str r.str < 0

/-- Sorting of the case array (the source uses `std::sort` with
`operator<`; on the duplicate-free inputs the lowering trusts, the
sorted permutation is unique, so insertion sort is an exact model). -/
def sortCases (l : List SCase) : List SCase :=
  List.insertionSort (fun a b => caseLt b a = false) l

/-- Model of the case-array construction of the string-switch path of
`ToIRVisitor::visit(SwitchStatement)`: pair every case string with its
original index, then sort. -/
def sortedCaseArray (strs : List String) : List SCase :=
  sortCases (strs.enum.map (fun p => ⟨p.2, p.1⟩))

/-- Model of the constant lookup table handed to the runtime: the case
strings in sorted order. -/
def stringSwitchTable (strs : List String) : List String :=
  (sortedCaseArray strs).map (fun c => c.str)

/-- Dense index assigned to the case at original position `j` (the loop
stores `cs->llvmIdx = i` for the case found at `caseArray[i].index`): the
position of that case in the sorted array. -/
def stringCaseIdx (strs : List String) (j : Nat) : Nat :=
  (sortedCaseArray strs).findIdx (fun c => c.index == j)

/-- Modelled from the spec: the runtime string-switch search
(`_d_switch_string` and friends, external collaborators) returns the
index of the entry of the lookup table that equals the controlling value,
and a non-index otherwise. -/
def dSwitchString (table : List String) (v : String) : Int :=
  if table.contains v then (table.findIdx (fun t => t == v) : Int) else -1

/-- Cases of the multi-way branch of a string switch, in source order:
each case keyed by its assigned dense index, targeting its body block. -/
def stringSwitchPairs (cases : List (String × Nat)) : List (Int × Nat) :=
  cases.enum.map (fun p => ((stringCaseIdx (cases.map Prod.fst) p.1 : Int), p.2.2))

/-- Destination selected by a multi-way branch terminator: the first case
whose key equals the scrutinee, the default otherwise (LLVM switch
semantics; case keys are unique in well-formed IR). -/
def switchDest (scrut : Int) (cases : List (Int × Nat)) (dflt : Nat) : Nat :=
  match cases.find? (fun p => p.1 == scrut) with
  | some p => p.2
  | none => dflt

/-- Multi-step execution of the emitted graph, following the first
terminator of each block, stopping at any block in `stops` (the
already-lowered case bodies and the end block). -/
def execFrom (s : St) (stops : List Nat) : Nat → Nat → Option Nat
  | _, 0 => none
  | b, fuel + 1 =>
    if b ∈ stops then some b
    else
      match (getBlock s b).terms.head? with
      | some (.br t) => execFrom s stops t fuel
      | some (.condBr a c t f) => execFrom s stops (if a = c then t else f) fuel
      | some (.switchI v cs d) => execFrom s stops (switchDest v cs d) fuel
      | _ => none

/-- First case of a dispatch matching the controlling value, tried in
source order. -/
def firstMatch (condVal : Int) (cases : List (Int × Nat)) : Option Nat :=
  (cases.find? (fun p => p.1 == condVal)).map (fun p => p.2)

/-- Case of a switch statement as the dispatch stage sees it: the label
expression and the body block assigned while lowering the switch body. -/
structure SwCase where
  exp : CaseExp
  bodyBB : Nat
deriving DecidableEq, Repr

/-- Model of `ToIRVisitor::visit(SwitchStatement)` without
instrumentation, assembled from the stages above: pick the strategy,
create the body and end blocks (and the default block if present), lower
the body under a break target for the statement, then emit the dispatch
in the old block — the multi-way branch (with the string table mapping
for string switches) when every case is constant, the linear-compare
chain otherwise — and continue in the end block.  The controlling
value is `inl` of the integer value or `inr` of the string value, both
supplied by the opaque expression lowering. -/
def visitSwitch (stmtId : Nat) (cond : Int ⊕ String) (cases : List SwCase)
    (hasDefault : Bool) (bodyF : St → St) (s : St) : St :=
  let oldbb := s.cur
  let (bodybb, s) := newBB s
  let (endbb, s) := newBB s
  let (defbb, s) :=
    if hasDefault then
      let (d, s) := newBB s
      (some d, s)
    else (none, s)
  let s := setScope bodybb s
  let s := pushBreakTarget stmtId endbb s
  let s := bodyF s
  let s := popLoopTarget s
  let s := if !scopereturned s then terminateWith (.br endbb) s else s
  let s := setScope oldbb s
  let s :=
    if computeUseSwitchInst (cases.map (fun c => c.exp)) then
      match cond with
      | .inl v =>
        lowerSwitchTable v (cases.map (fun c => (caseRuntimeVal c.exp, c.bodyBB))) defbb endbb s
      | .inr sv =>
        let strs := cases.map (fun c =>
          match c.exp with
          | .strConst t => t
          | _ => "")
        lowerSwitchTable (dSwitchString (stringSwitchTable strs) sv)
          (stringSwitchPairs (cases.map (fun c =>
            (match c.exp with
             | .strConst t => t
             | _ => "", c.bodyBB)))) defbb endbb s
    else
      lowerSwitchLinear false
        (match cond with
         | .inl v => v
         | .inr _ => 0)
        (cases.map (fun c => (caseRuntimeVal c.exp, c.bodyBB))) defbb endbb s
  setScope endbb s

/-- Number of return instructions in the whole graph. -/
def retCount (s : St) : Nat :=
  (s.blocks.map (fun bb =>
    (bb.terms.filter (fun t => t == .retInstr || t == .retVoid)).length)).sum

/-- A statement lowering that leaves the cleanup stack as it found it.
Every visitor of the engine has this property (pushes are matched by
pops); it is the hypothesis under which properties of an enclosing
construct are proved for an arbitrary nested body. -/
def CleanupStable (f : St → St) : Prop :=
  ∀ s : St, (f s).cleanups = s.cleanups

/-- A statement lowering that only appends to the event trace. -/
def TraceApp (f : St → St) : Prop :=
  ∀ s : St, ∃ t : List Ev, (f s).trace = s.trace ++ t

/-- A statement lowering that leaves the catch-scope stack as it found
it. -/
def CatchStable (f : St → St) : Prop :=
  ∀ s : St, (f s).catchScopes = s.catchScopes

/-- State in which the finally body of a try/finally statement is
lowered: the fresh `finallybb` block is current. -/
def tfFinallyEntry (s : St) : St :=
  setScope s.blocks.length (newBB s).2

/-- State after lowering the finally body `f` of a try/finally
statement starting from `s`. -/
def tfAfterFinally (f : St → St) (s : St) : St :=
  f (tfFinallyEntry s)

/-- State in which the try body of a try/finally statement is lowered:
the finally body has been lowered into `finallybb`, which was pushed as
a single cleanup, and the original block is current again. -/
def tfBodyEntry (f : St → St) (s : St) : St :=
  setScope s.cur (pushCleanup s.blocks.length (tfAfterFinally f s).cur (tfAfterFinally f s))

/-- The current insertion point of `t` is a block freshly created while
lowering from `s`, still open and empty — the condition the engine
restores right after emitting any terminator. -/
def freshOpenBlockCurrent (s t : St) : Prop :=
  s.blocks.length ≤ t.cur ∧ t.cur < t.blocks.length ∧
  (getBlock t t.cur).instrs = [] ∧ (getBlock t t.cur).terms = []

/-- Child statements of an unrolled loop used to exercise its block
topology: an opaque expression statement, an unlabeled break, or an
unlabeled continue. -/
inductive DemoChild where
  | exp (tag : Nat)
  | brk
  | cont
deriving DecidableEq, Repr

/-- Lowering function of a demo child. -/
def demoChildF : DemoChild → (St → St)
  | .exp t => visitExpStatement t
  | .brk => visitBreak none
  | .cont => visitContinue none

/-- Expected content of the block a demo child is lowered into, given
the end block of the unrolled loop and the next child's block: an
expression statement falls through to the next block, a break branches
to the end block, a continue branches to the next block. -/
def demoExpected (endbb nextbb : Nat) : DemoChild → BB
  | .exp t => ⟨[.stmtCode t], [.br nextbb]⟩
  | .brk => ⟨[], [.br endbb]⟩
  | .cont => ⟨[], [.br nextbb]⟩

/-- Initial lowering state: a single open entry block, empty stacks. -/
def st0 : St :=
  ⟨[⟨[], []⟩], 0, [], 0, [], [], none, none, 0, []⟩

/-- State in which the dispatch stage of a switch statement runs: an
open current entry block 0 and three already-lowered blocks — the first
case body (block 1), the second case body (block 2) and the default /
end block (block 3). -/
def stSw : St :=
  ⟨[⟨[], []⟩, ⟨[], []⟩, ⟨[], []⟩, ⟨[], []⟩], 0, [], 0, [], [], none, none, 0, []⟩

/-- State with an open current block 0, a block 1 holding the code of a
pending cleanup, and that single cleanup on the stack — e.g. inside the
try body of a try/finally. -/
def stCleanup : St :=
  ⟨[⟨[], []⟩, ⟨[], []⟩], 0, [⟨0, 1, 1⟩], 1, [], [], none, none, 0, []⟩

/-- State whose current block 0 is already terminated (a branch to block
2 was emitted) while a loop target with continue block 1 and break block
2 is active — the situation the break-statement guard tests for. -/
def stTerm : St :=
  ⟨[⟨[], [.br 2]⟩, ⟨[], []⟩, ⟨[], []⟩], 0, [], 0, [⟨7, some 1, 2, 0⟩], [], none, none, 0, []⟩

/-- State after a first cleanup-requiring return: one pending cleanup
(block 1 holds its code), the shared return block 2 already created with
the final return instruction, and the shared slot 0 allocated. -/
def stRet : St :=
  ⟨[⟨[], []⟩, ⟨[], []⟩, ⟨[], [.retInstr]⟩], 0, [⟨0, 1, 1⟩], 1, [], [], some 2, some 0, 1, []⟩

/-! Basic lemmas about the list and block primitives. -/

theorem length_updAt {α : Type} (l : List α) (i : Nat) (f : α → α) :
    (updAt l i f).length = l.length := by
  induction l generalizing i with
  | nil => rfl
  | cons a as ih =>
    cases i with
    | zero => rfl
    | succ j => simp [updAt, ih]

theorem getD_updAt_self {α : Type} (l : List α) (i : Nat) (f : α → α) (d : α)
    (h : i < l.length) : (updAt l i f).getD i d = f (l.getD i d) := by
  induction l generalizing i with
  | nil => simp at h
  | cons a as ih =>
    cases i with
    | zero => rfl
    | succ j =>
      simp only [updAt, List.getD_cons_succ]
      exact ih j (by simpa using h)

theorem getD_updAt_ne {α : Type} (l : List α) (i j : Nat) (f : α → α) (d : α)
    (h : j ≠ i) : (updAt l i f).getD j d = l.getD j d := by
  induction l generalizing i j with
  | nil => rfl
  | cons a as ih =>
    cases i with
    | zero =>
      cases j with
      | zero => exact absurd rfl h
      | succ k => rfl
    | succ i' =>
      cases j with
      | zero => rfl
      | succ k =>
        simp only [updAt, List.getD_cons_succ]
        exact ih i' k (fun hk => h (by omega))

theorem getD_append_left {α : Type} (l l' : List α) (n : Nat) (d : α)
    (h : n < l.length) : (l ++ l').getD n d = l.getD n d :=
  List.getD_append l l' d n h

theorem getD_append_len {α : Type} (l : List α) (x d : α) :
    (l ++ [x]).getD l.length d = x := by
  induction l with
  | nil => rfl
  | cons a as ih => simp [ih]

theorem getD_ge {α : Type} (l : List α) (n : Nat) (d : α) (h : l.length ≤ n) :
    l.getD n d = d := by
  induction l generalizing n with
  | nil => cases n <;> rfl
  | cons a as ih =>
    cases n with
    | zero => simp at h
    | succ k =>
      simp only [List.getD_cons_succ]
      exact ih k (by simpa using h)

theorem getBlock_newBB_lt (s : St) (b : Nat) (h : b < s.blocks.length) :
    getBlock (newBB s).2 b = getBlock s b := by
  simp only [getBlock, newBB]
  exact getD_append_left _ _ _ _ h

theorem getBlock_newBB_len (s : St) :
    getBlock (newBB s).2 s.blocks.length = ⟨[], []⟩ := by
  simp only [getBlock, newBB]
  exact getD_append_len _ _ _

theorem getBlock_terminateWith_self (s : St) (t : Term) (h : s.cur < s.blocks.length) :
    getBlock (terminateWith t s) s.cur
      = ⟨(getBlock s s.cur).instrs, (getBlock s s.cur).terms ++ [t]⟩ := by
  simp only [getBlock, terminateWith]
  rw [getD_updAt_self _ _ _ _ h]

theorem getBlock_terminateWith_ne (s : St) (t : Term) (b : Nat) (h : b ≠ s.cur) :
    getBlock (terminateWith t s) b = getBlock s b := by
  simp only [getBlock, terminateWith]
  rw [getD_updAt_ne _ _ _ _ _ h]

theorem getBlock_appendInstr_self (s : St) (i : Instr) (h : s.cur < s.blocks.length) :
    getBlock (appendInstr i s) s.cur
      = ⟨(getBlock s s.cur).instrs ++ [i], (getBlock s s.cur).terms⟩ := by
  simp only [getBlock, appendInstr]
  rw [getD_updAt_self _ _ _ _ h]

theorem getBlock_appendInstr_ne (s : St) (i : Instr) (b : Nat) (h : b ≠ s.cur) :
    getBlock (appendInstr i s) b = getBlock s b := by
  simp only [getBlock, appendInstr]
  rw [getD_updAt_ne _ _ _ _ _ h]

theorem scopereturned_imp_lt (s : St) (h : scopereturned s = true) :
    s.cur < s.blocks.length := by
  by_contra hge
  have : getBlock s s.cur = ⟨[], []⟩ := by
    simp only [getBlock]
    exact getD_ge _ _ _ (by omega)
  rw [scopereturned, this] at h
  simp at h

/-! Lemmas about the cleanup-running chain. -/

theorem runCleanupStep_fields (s : St) (c : Cleanup) :
    (runCleanupStep s c).blocks.length = s.blocks.length + 1 ∧
    (runCleanupStep s c).cur = s.blocks.length ∧
    (runCleanupStep s c).trace = s.trace ++ [.runCleanup c.id] ∧
    (runCleanupStep s c).cleanups = s.cleanups ∧
    (runCleanupStep s c).loopTargets = s.loopTargets ∧
    (runCleanupStep s c).catchScopes = s.catchScopes ∧
    (runCleanupStep s c).retBlock = s.retBlock ∧
    (runCleanupStep s c).retValSlot = s.retValSlot ∧
    (runCleanupStep s c).nextSlot = s.nextSlot ∧
    (runCleanupStep s c).nextCleanupId = s.nextCleanupId := by
  simp [runCleanupStep, newBB, terminateWith, setScope, appendInstr, emitEv, length_updAt]

theorem foldChain_spec (l : List Cleanup) (s : St) :
    ((l.foldl runCleanupStep s).blocks.length = s.blocks.length + l.length) ∧
    ((l.foldl runCleanupStep s).cur
      = if l.isEmpty then s.cur else s.blocks.length + l.length - 1) ∧
    ((l.foldl runCleanupStep s).trace
      = s.trace ++ l.map (fun c => Ev.runCleanup c.id)) ∧
    ((l.foldl runCleanupStep s).cleanups = s.cleanups) ∧
    ((l.foldl runCleanupStep s).loopTargets = s.loopTargets) ∧
    ((l.foldl runCleanupStep s).catchScopes = s.catchScopes) ∧
    ((l.foldl runCleanupStep s).retBlock = s.retBlock) ∧
    ((l.foldl runCleanupStep s).retValSlot = s.retValSlot) ∧
    ((l.foldl runCleanupStep s).nextSlot = s.nextSlot) ∧
    ((l.foldl runCleanupStep s).nextCleanupId = s.nextCleanupId) := by
  induction l generalizing s with
  | nil => simp
  | cons c rest ih =>
    obtain ⟨h1, h2, h3, h4, h5, h6, h7, h8, h9, h10⟩ := ih (runCleanupStep s c)
    obtain ⟨g1, g2, g3, g4, g5, g6, g7, g8, g9, g10⟩ := runCleanupStep_fields s c
    refine ⟨?_, ?_, ?_, ?_, ?_, ?_, ?_, ?_, ?_, ?_⟩ <;>
      simp only [List.foldl_cons, h1, h2, h3, h4, h5, h6, h7, h8, h9, h10,
        g1, g2, g3, g4, g5, g6, g7, g8, g9, g10, List.isEmpty_cons, List.map_cons,
        List.length_cons, List.append_assoc, List.singleton_append]
    · omega
    · cases rest with
      | nil => simp
      | cons d ds => simp; omega

theorem getBlock_runCleanupStep_ne (s : St) (c : Cleanup) (b : Nat)
    (hb : b < s.blocks.length) (hne : b ≠ s.cur) :
    getBlock (runCleanupStep s c) b = getBlock s b := by
  have h1 : runCleanupStep s c
      = emitEv (.runCleanup c.id) (appendInstr (.cleanupCode c.id)
          (setScope s.blocks.length (terminateWith (.br s.blocks.length) (newBB s).2))) := rfl
  rw [h1]
  have h2 : getBlock (emitEv (.runCleanup c.id) (appendInstr (.cleanupCode c.id)
      (setScope s.blocks.length (terminateWith (.br s.blocks.length) (newBB s).2)))) b
      = getBlock (appendInstr (.cleanupCode c.id)
          (setScope s.blocks.length (terminateWith (.br s.blocks.length) (newBB s).2))) b := rfl
  rw [h2, getBlock_appendInstr_ne _ _ _ (by
    show b ≠ (setScope s.blocks.length (terminateWith (.br s.blocks.length) (newBB s).2)).cur
    simp only [setScope]
    omega)]
  have h3 : getBlock (setScope s.blocks.length
      (terminateWith (.br s.blocks.length) (newBB s).2)) b
      = getBlock (terminateWith (.br s.blocks.length) (newBB s).2) b := rfl
  rw [h3, getBlock_terminateWith_ne _ _ _ (by
    show b ≠ (newBB s).2.cur
    simp only [newBB]
    exact hne)]
  exact getBlock_newBB_lt s b hb

theorem foldChain_frame (l : List Cleanup) (s : St) (b : Nat)
    (hb : b < s.blocks.length) (hne : b ≠ s.cur) :
    getBlock (l.foldl runCleanupStep s) b = getBlock s b := by
  induction l generalizing s with
  | nil => rfl
  | cons c rest ih =>
    obtain ⟨g1, g2, _⟩ := runCleanupStep_fields s c
    rw [List.foldl_cons,
      ih (runCleanupStep s c) (by omega) (by omega),
      getBlock_runCleanupStep_ne s c b hb hne]

theorem runCleanups_fields (downTo target : Nat) (s : St) :
    (runCleanups downTo target s).blocks.length
      = s.blocks.length + (s.cleanups.length - downTo) ∧
    (runCleanups downTo target s).cur
      = (if s.cleanups.length - downTo = 0 then s.cur
         else s.blocks.length + (s.cleanups.length - downTo) - 1) ∧
    (runCleanups downTo target s).trace
      = s.trace ++ (s.cleanups.take (s.cleanups.length - downTo)).map
          (fun c => Ev.runCleanup c.id) ∧
    (runCleanups downTo target s).cleanups = s.cleanups ∧
    (runCleanups downTo target s).loopTargets = s.loopTargets ∧
    (runCleanups downTo target s).catchScopes = s.catchScopes ∧
    (runCleanups downTo target s).retBlock = s.retBlock ∧
    (runCleanups downTo target s).retValSlot = s.retValSlot ∧
    (runCleanups downTo target s).nextSlot = s.nextSlot ∧
    (runCleanups downTo target s).nextCleanupId = s.nextCleanupId := by
  obtain ⟨h1, h2, h3, h4, h5, h6, h7, h8, h9, h10⟩ :=
    foldChain_spec (s.cleanups.take (s.cleanups.length - downTo)) s
  have hlen : (s.cleanups.take (s.cleanups.length - downTo)).length
      = s.cleanups.length - downTo := by
    simp [List.length_take]
  have hemp : (s.cleanups.take (s.cleanups.length - downTo)).isEmpty
      = true ↔ s.cleanups.length - downTo = 0 := by
    rw [List.isEmpty_iff_length_eq_zero, hlen]
  refine ⟨?_, ?_, ?_, ?_, ?_, ?_, ?_, ?_, ?_, ?_⟩ <;>
    simp only [runCleanups, terminateWith, length_updAt, h1, h2, h3, h4, h5, h6,
      h7, h8, h9, h10, hlen]
  by_cases hz : s.cleanups.length - downTo = 0
  · simp [hz, hemp.mpr hz]
  · have : ¬ (s.cleanups.take (s.cleanups.length - downTo)).isEmpty = true := by
      intro h
      exact hz (hemp.mp h)
    simp [hz, this]

theorem runCleanups_lastBlock (downTo target : Nat) (s : St)
    (hcur : s.cur < s.blocks.length) :
    (getBlock (runCleanups downTo target s)
        (if s.cleanups.length - downTo = 0 then s.cur
         else s.blocks.length + (s.cleanups.length - downTo) - 1)).terms.getLast?
      = some (.br target) := by
  obtain ⟨h1, h2, _⟩ :=
    foldChain_spec (s.cleanups.take (s.cleanups.length - downTo)) s
  have hlen : (s.cleanups.take (s.cleanups.length - downTo)).length
      = s.cleanups.length - downTo := by
    simp [List.length_take]
  have hemp : (s.cleanups.take (s.cleanups.length - downTo)).isEmpty
      = true ↔ s.cleanups.length - downTo = 0 := by
    rw [List.isEmpty_iff_length_eq_zero, hlen]
  set F := (s.cleanups.take (s.cleanups.length - downTo)).foldl runCleanupStep s with hF
  have hcureq : F.cur = (if s.cleanups.length - downTo = 0 then s.cur
      else s.blocks.length + (s.cleanups.length - downTo) - 1) := by
    rw [h2]
    by_cases hz : s.cleanups.length - downTo = 0
    · simp [hz, hemp.mpr hz]
    · have : ¬ (s.cleanups.take (s.cleanups.length - downTo)).isEmpty = true := by
        intro h
        exact hz (hemp.mp h)
      simp [hz, this, hlen]
  have hcurlt : F.cur < F.blocks.length := by
    rw [hcureq, h1, hlen]
    by_cases hz : s.cleanups.length - downTo = 0 <;> simp [hz] <;> omega
  have : runCleanups downTo target s = terminateWith (.br target) F := rfl
  rw [this, ← hcureq, getBlock_terminateWith_self F _ hcurlt]
  simp

theorem runCleanups_frame (downTo target : Nat) (s : St) (b : Nat)
    (hb : b < s.blocks.length) (hne : b ≠ s.cur) :
    getBlock (runCleanups downTo target s) b = getBlock s b := by
  obtain ⟨h1, h2, _⟩ :=
    foldChain_spec (s.cleanups.take (s.cleanups.length - downTo)) s
  set F := (s.cleanups.take (s.cleanups.length - downTo)).foldl runCleanupStep s with hF
  have hnecur : b ≠ F.cur := by
    rw [h2]
    rcases Bool.eq_false_or_eq_true
        ((s.cleanups.take (s.cleanups.length - downTo)).isEmpty) with hz | hz
    · simp only [hz, if_true]
      exact hne
    · have hlenpos : 0 < (s.cleanups.take (s.cleanups.length - downTo)).length := by
        by_contra h0
        have hz0 : (s.cleanups.take (s.cleanups.length - downTo)).length = 0 := by omega
        rw [← List.isEmpty_iff_length_eq_zero] at hz0
        simp [hz] at hz0
      simp only [hz, Bool.false_eq_true, if_false]
      omega
  have : runCleanups downTo target s = terminateWith (.br target) F := rfl
  rw [this, getBlock_terminateWith_ne F _ b hnecur]
  exact foldChain_frame _ s b hb hne

theorem popCleanups_fields (downTo : Nat) (s : St) :
    (popCleanups downTo s).blocks = s.blocks ∧
    (popCleanups downTo s).cur = s.cur ∧
    (popCleanups downTo s).cleanups
      = s.cleanups.drop (s.cleanups.length - downTo) ∧
    (popCleanups downTo s).trace
      = s.trace ++ (s.cleanups.take (s.cleanups.length - downTo)).map
          (fun c => Ev.popCleanup c.id) ∧
    (popCleanups downTo s).loopTargets = s.loopTargets ∧
    (popCleanups downTo s).catchScopes = s.catchScopes ∧
    (popCleanups downTo s).retBlock = s.retBlock ∧
    (popCleanups downTo s).retValSlot = s.retValSlot ∧
    (popCleanups downTo s).nextSlot = s.nextSlot ∧
    (popCleanups downTo s).nextCleanupId = s.nextCleanupId := by
  refine ⟨rfl, rfl, rfl, rfl, rfl, rfl, rfl, rfl, rfl, rfl⟩

theorem updAt_ge {α : Type} (l : List α) (i : Nat) (f : α → α) (h : l.length ≤ i) :
    updAt l i f = l := by
  induction l generalizing i with
  | nil => rfl
  | cons a as ih =>
    cases i with
    | zero => simp at h
    | succ j =>
      simp only [updAt, List.cons.injEq, true_and]
      exact ih j (by simpa using h)

theorem sum_map_updAt {α : Type} (l : List α) (i : Nat) (f : α → α) (g : α → Nat)
    (d : α) (h : i < l.length) :
    ((updAt l i f).map g).sum + g (l.getD i d)
      = (l.map g).sum + g (f (l.getD i d)) := by
  induction l generalizing i with
  | nil => simp at h
  | cons a as ih =>
    cases i with
    | zero =>
      simp only [updAt, List.map_cons, List.sum_cons, List.getD_cons_zero]
      omega
    | succ j =>
      simp only [updAt, List.map_cons, List.sum_cons, List.getD_cons_succ]
      have := ih j (by simpa using h)
      omega

theorem retCount_terminateWith_notRet (s : St) (t : Term)
    (ht : (t == Term.retInstr || t == Term.retVoid) = false) :
    retCount (terminateWith t s) = retCount s := by
  by_cases h : s.cur < s.blocks.length
  · have hs := sum_map_updAt s.blocks s.cur
      (fun bb => { bb with terms := bb.terms ++ [t] })
      (fun bb => (bb.terms.filter (fun u => u == .retInstr || u == .retVoid)).length)
      ⟨[], []⟩ h
    simp only [List.filter_append, List.length_append] at hs
    simp only [List.filter_cons, ht, Bool.false_eq_true, if_false, List.filter_nil,
      List.length_nil] at hs
    simp only [retCount, terminateWith]
    omega
  · simp only [retCount, terminateWith, updAt_ge s.blocks s.cur _ (by omega)]

theorem retCount_terminateWith_ret (s : St) (t : Term)
    (h : s.cur < s.blocks.length) (ht : (t == Term.retInstr || t == Term.retVoid) = true) :
    retCount (terminateWith t s) = retCount s + 1 := by
  have hs := sum_map_updAt s.blocks s.cur
    (fun bb => { bb with terms := bb.terms ++ [t] })
    (fun bb => (bb.terms.filter (fun u => u == .retInstr || u == .retVoid)).length)
    ⟨[], []⟩ h
  simp only [List.filter_append, List.length_append] at hs
  simp only [List.filter_cons, ht, if_true, List.filter_nil, List.length_cons,
    List.length_nil] at hs
  simp only [retCount, terminateWith]
  omega

theorem retCount_appendInstr (s : St) (i : Instr) :
    retCount (appendInstr i s) = retCount s := by
  by_cases h : s.cur < s.blocks.length
  · have hs := sum_map_updAt s.blocks s.cur
      (fun bb => { bb with instrs := bb.instrs ++ [i] })
      (fun bb => (bb.terms.filter (fun u => u == .retInstr || u == .retVoid)).length)
      ⟨[], []⟩ h
    simp only [retCount, appendInstr]
    simp at hs
    omega
  · simp only [retCount, appendInstr, updAt_ge s.blocks s.cur _ (by omega)]

theorem retCount_newBB (s : St) : retCount (newBB s).2 = retCount s := by
  simp [retCount, newBB]

theorem retCount_foldChain (l : List Cleanup) (s : St) :
    retCount (l.foldl runCleanupStep s) = retCount s := by
  induction l generalizing s with
  | nil => rfl
  | cons c rest ih =>
    rw [List.foldl_cons, ih]
    have hstep : runCleanupStep s c
        = emitEv (.runCleanup c.id) (appendInstr (.cleanupCode c.id)
            (setScope s.blocks.length (terminateWith (.br s.blocks.length) (newBB s).2))) := rfl
    rw [hstep]
    have h1 : retCount (emitEv (Ev.runCleanup c.id) (appendInstr (Instr.cleanupCode c.id)
        (setScope s.blocks.length (terminateWith (Term.br s.blocks.length) (newBB s).2))))
        = retCount (appendInstr (Instr.cleanupCode c.id)
            (setScope s.blocks.length (terminateWith (Term.br s.blocks.length) (newBB s).2))) := rfl
    rw [h1, retCount_appendInstr]
    have h2 : retCount (setScope s.blocks.length
        (terminateWith (Term.br s.blocks.length) (newBB s).2))
        = retCount (terminateWith (Term.br s.blocks.length) (newBB s).2) := rfl
    rw [h2, retCount_terminateWith_notRet (newBB s).2 (Term.br s.blocks.length) (by rfl),
      retCount_newBB]

theorem retCount_runCleanups (downTo target : Nat) (s : St) :
    retCount (runCleanups downTo target s) = retCount s := by
  show retCount (terminateWith (.br target)
    ((s.cleanups.take (s.cleanups.length - downTo)).foldl runCleanupStep s)) = retCount s
  rw [retCount_terminateWith_notRet
    ((s.cleanups.take (s.cleanups.length - downTo)).foldl runCleanupStep s)
    (Term.br target) (by rfl), retCount_foldChain]

theorem runCleanups_blocksLen (d t : Nat) (s : St) :
    (runCleanups d t s).blocks.length = s.blocks.length + (s.cleanups.length - d) :=
  (runCleanups_fields d t s).1

theorem runCleanups_trace (d t : Nat) (s : St) :
    (runCleanups d t s).trace
      = s.trace ++ (s.cleanups.take (s.cleanups.length - d)).map
          (fun c => Ev.runCleanup c.id) :=
  (runCleanups_fields d t s).2.2.1

theorem runCleanups_cleanups (d t : Nat) (s : St) :
    (runCleanups d t s).cleanups = s.cleanups :=
  (runCleanups_fields d t s).2.2.2.1

theorem runCleanups_loopTargets (d t : Nat) (s : St) :
    (runCleanups d t s).loopTargets = s.loopTargets :=
  (runCleanups_fields d t s).2.2.2.2.1

theorem runCleanups_catchScopes (d t : Nat) (s : St) :
    (runCleanups d t s).catchScopes = s.catchScopes :=
  (runCleanups_fields d t s).2.2.2.2.2.1

theorem runCleanups_retBlock (d t : Nat) (s : St) :
    (runCleanups d t s).retBlock = s.retBlock :=
  (runCleanups_fields d t s).2.2.2.2.2.2.1

theorem runCleanups_retValSlot (d t : Nat) (s : St) :
    (runCleanups d t s).retValSlot = s.retValSlot :=
  (runCleanups_fields d t s).2.2.2.2.2.2.2.1

theorem runCleanups_nextSlot (d t : Nat) (s : St) :
    (runCleanups d t s).nextSlot = s.nextSlot :=
  (runCleanups_fields d t s).2.2.2.2.2.2.2.2.1

theorem runCleanups_nextCleanupId (d t : Nat) (s : St) :
    (runCleanups d t s).nextCleanupId = s.nextCleanupId :=
  (runCleanups_fields d t s).2.2.2.2.2.2.2.2.2

theorem foldChain_instrs_cur (l : List Cleanup) (s : St) (h : s.cur < s.blocks.length) :
    (getBlock (l.foldl runCleanupStep s) s.cur).instrs = (getBlock s s.cur).instrs := by
  cases l with
  | nil => rfl
  | cons c rest =>
    obtain ⟨g1, g2, _⟩ := runCleanupStep_fields s c
    rw [List.foldl_cons,
      foldChain_frame rest (runCleanupStep s c) s.cur (by omega) (by omega)]
    have hstep : runCleanupStep s c
        = emitEv (.runCleanup c.id) (appendInstr (.cleanupCode c.id)
            (setScope s.blocks.length (terminateWith (.br s.blocks.length) (newBB s).2))) := rfl
    rw [hstep]
    have h1 : getBlock (emitEv (Ev.runCleanup c.id) (appendInstr (Instr.cleanupCode c.id)
        (setScope s.blocks.length (terminateWith (Term.br s.blocks.length) (newBB s).2)))) s.cur
        = getBlock (appendInstr (Instr.cleanupCode c.id)
            (setScope s.blocks.length (terminateWith (Term.br s.blocks.length) (newBB s).2))) s.cur := rfl
    rw [h1, getBlock_appendInstr_ne _ _ _ (by
      show s.cur ≠ (setScope s.blocks.length (terminateWith (Term.br s.blocks.length) (newBB s).2)).cur
      simp only [setScope]
      omega)]
    have h2 : getBlock (setScope s.blocks.length
        (terminateWith (Term.br s.blocks.length) (newBB s).2)) s.cur
        = getBlock (terminateWith (Term.br s.blocks.length) (newBB s).2) s.cur := rfl
    rw [h2]
    have h3 : (newBB s).2.cur = s.cur := rfl
    rw [← h3, getBlock_terminateWith_self (newBB s).2 _ (by
      rw [h3]
      show s.cur < (s.blocks ++ [(⟨[], []⟩ : BB)]).length
      simp
      omega)]
    rw [h3, getBlock_newBB_lt s s.cur h]

theorem runCleanups_instrs_cur (d t : Nat) (s : St) (h : s.cur < s.blocks.length) :
    (getBlock (runCleanups d t s) s.cur).instrs = (getBlock s s.cur).instrs := by
  obtain ⟨h1, _⟩ := foldChain_spec (s.cleanups.take (s.cleanups.length - d)) s
  set F := (s.cleanups.take (s.cleanups.length - d)).foldl runCleanupStep s with hF
  have hrc : runCleanups d t s = terminateWith (.br t) F := rfl
  rw [hrc]
  by_cases hc : s.cur = F.cur
  · rw [hc, getBlock_terminateWith_self F _ (by rw [← hc, h1]; omega)]
    show (getBlock F F.cur).instrs = _
    rw [← hc]
    exact foldChain_instrs_cur _ s h
  · rw [getBlock_terminateWith_ne F _ s.cur hc]
    exact foldChain_instrs_cur _ s h

theorem visitReturn_noCleanups_eq (s : St) (hasVal : Bool) (hA : s.cleanups = []) :
    visitReturn hasVal s
      = setScope (terminateWith (if hasVal then Term.retInstr else Term.retVoid) s).blocks.length
          (newBB (terminateWith (if hasVal then Term.retInstr else Term.retVoid) s)).2 := by
  cases hasVal <;>
    simp [visitReturn, currentCleanupScope, hA] <;> rfl

theorem visitReturn_first_eq (s : St) (hasVal : Bool) (hB : s.cleanups ≠ [])
    (hrb : s.retBlock = none) :
    visitReturn hasVal s
      = (let s2 : St := { (newBB s).2 with retBlock := some s.blocks.length }
         let s3 : St := if hasVal then
             { s2 with retValSlot := some s2.nextSlot, nextSlot := s2.nextSlot + 1 }
           else s2
         let s4 : St := if hasVal then appendInstr (.storeRet s.nextSlot) s3 else s3
         let s7 : St := terminateWith (if hasVal then Term.retInstr else Term.retVoid)
           (setScope s.blocks.length (runCleanups 0 s.blocks.length s4))
         setScope s7.blocks.length (newBB s7).2) := by
  have hlen : s.cleanups.length ≠ 0 := by
    intro h
    exact hB (List.length_eq_zero.mp h)
  cases hasVal <;>
    simp [visitReturn, currentCleanupScope, hrb, runAllCleanups, hlen,
      runCleanups_retBlock] <;> rfl

theorem visitReturn_subsequent_eq (s : St) (hasVal : Bool) (rb : Nat)
    (hB : s.cleanups ≠ []) (hrb : s.retBlock = some rb) :
    visitReturn hasVal s
      = (let s4 : St := if hasVal then
             appendInstr (.storeRet (s.retValSlot.getD 0)) s
           else s
         let s6 : St := setScope rb (runCleanups 0 rb s4)
         setScope s6.blocks.length (newBB s6).2) := by
  have hlen : s.cleanups.length ≠ 0 := by
    intro h
    exact hB (List.length_eq_zero.mp h)
  cases hasVal <;>
    simp [visitReturn, currentCleanupScope, hrb, runAllCleanups, hlen,
      runCleanups_retBlock, appendInstr] <;> rfl

theorem c4aux_direct (s : St) (hasVal : Bool) (hcur : s.cur < s.blocks.length)
    (hA : s.cleanups = []) :
    (visitReturn hasVal s).retBlock = s.retBlock ∧
    (visitReturn hasVal s).retValSlot = s.retValSlot ∧
    (visitReturn hasVal s).blocks.length = s.blocks.length + 1 ∧
    (getBlock (visitReturn hasVal s) s.cur).terms
      = (getBlock s s.cur).terms ++ [if hasVal then Term.retInstr else Term.retVoid] ∧
    (visitReturn hasVal s).trace = s.trace ∧
    retCount (visitReturn hasVal s) = retCount s + 1 := by
  rw [visitReturn_noCleanups_eq s hasVal hA]
  have hTlen : (terminateWith (if hasVal then Term.retInstr else Term.retVoid) s).blocks.length
      = s.blocks.length := by
    simp [terminateWith, length_updAt]
  refine ⟨rfl, rfl, ?_, ?_, rfl, ?_⟩
  · show ((newBB (terminateWith (if hasVal then Term.retInstr else Term.retVoid) s)).2.blocks).length = _
    simp [newBB, hTlen]
  · show (getBlock (newBB (terminateWith (if hasVal then Term.retInstr else Term.retVoid) s)).2 s.cur).terms = _
    rw [getBlock_newBB_lt _ s.cur (by omega),
      getBlock_terminateWith_self s _ hcur]
  · show retCount (newBB (terminateWith (if hasVal then Term.retInstr else Term.retVoid) s)).2 = _
    rw [retCount_newBB,
      retCount_terminateWith_ret s _ hcur (by cases hasVal <;> rfl)]

theorem c4aux_first (s : St) (hasVal : Bool) (hcur : s.cur < s.blocks.length)
    (hB : s.cleanups ≠ []) (hrb : s.retBlock = none) :
    (visitReturn hasVal s).retBlock = some s.blocks.length ∧
    (hasVal = true → (visitReturn hasVal s).retValSlot = some s.nextSlot) ∧
    (getBlock (visitReturn hasVal s) s.blocks.length).terms
      = [if hasVal then Term.retInstr else Term.retVoid] ∧
    (visitReturn hasVal s).trace
      = s.trace ++ s.cleanups.map (fun c => Ev.runCleanup c.id) ∧
    (hasVal = true → (getBlock (visitReturn hasVal s) s.cur).instrs
      = (getBlock s s.cur).instrs ++ [.storeRet s.nextSlot]) ∧
    retCount (visitReturn hasVal s) = retCount s + 1 := by
  rw [visitReturn_first_eq s hasVal hB hrb]
  have hm : 0 < s.cleanups.length := List.length_pos.mpr hB
  cases hasVal
  case false =>
    simp only [Bool.false_eq_true, if_false]
    set s2 : St := { (newBB s).2 with retBlock := some s.blocks.length } with hs2
    set R : St := runCleanups 0 s.blocks.length s2 with hR
    set s7 : St := terminateWith Term.retVoid (setScope s.blocks.length R) with hs7
    have hs2blocks : s2.blocks = s.blocks ++ [⟨[], []⟩] := rfl
    have hs2len : s2.blocks.length = s.blocks.length + 1 := by
      rw [hs2blocks]
      simp
    have hRlen : R.blocks.length = s.blocks.length + 1 + s.cleanups.length := by
      rw [hR, runCleanups_blocksLen, hs2len]
      have : s2.cleanups = s.cleanups := rfl
      rw [this]
      omega
    have hs7len : s7.blocks.length = s.blocks.length + 1 + s.cleanups.length := by
      rw [hs7]
      show (updAt (setScope s.blocks.length R).blocks _ _).length = _
      rw [length_updAt]
      exact hRlen
    refine ⟨?_, ?_, ?_, ?_, ?_, ?_⟩
    · show R.retBlock = some s.blocks.length
      rw [hR, runCleanups_retBlock]
    · intro h
      exact absurd h (by simp)
    · show (getBlock (newBB s7).2 s.blocks.length).terms = _
      rw [getBlock_newBB_lt s7 _ (by omega)]
      have hgb : getBlock s7 s.blocks.length
          = ⟨(getBlock R s.blocks.length).instrs,
             (getBlock R s.blocks.length).terms ++ [Term.retVoid]⟩ :=
        getBlock_terminateWith_self (setScope s.blocks.length R) Term.retVoid (by
          show (setScope s.blocks.length R).cur < (setScope s.blocks.length R).blocks.length
          show s.blocks.length < R.blocks.length
          omega)
      rw [hgb]
      have hfr : getBlock R s.blocks.length = getBlock s2 s.blocks.length := by
        rw [hR]
        refine runCleanups_frame 0 s.blocks.length s2 s.blocks.length (by omega) ?_
        show s.blocks.length ≠ s2.cur
        have h9 : s2.cur = s.cur := rfl
        rw [h9]
        omega
      rw [hfr]
      have hget : getBlock s2 s.blocks.length = (⟨[], []⟩ : BB) := by
        show s2.blocks.getD s.blocks.length (⟨[], []⟩ : BB) = (⟨[], []⟩ : BB)
        rw [hs2blocks]
        exact getD_append_len _ _ _
      rw [hget]
      rfl
    · show R.trace = _
      rw [hR, runCleanups_trace]
      have h1 : s2.trace = s.trace := rfl
      have h2 : s2.cleanups = s.cleanups := rfl
      rw [h1, h2, Nat.sub_zero, List.take_length]
    · intro h
      exact absurd h (by simp)
    · show retCount (newBB s7).2 = _
      rw [retCount_newBB, hs7,
        retCount_terminateWith_ret (setScope s.blocks.length R) _ (by
          show (setScope s.blocks.length R).cur < (setScope s.blocks.length R).blocks.length
          show s.blocks.length < R.blocks.length
          omega) (by rfl)]
      have h1 : retCount (setScope s.blocks.length R) = retCount R := rfl
      rw [h1, hR, retCount_runCleanups]
      have h2 : retCount s2 = retCount (newBB s).2 := rfl
      rw [h2, retCount_newBB]
  case true =>
    simp only [if_true]
    set s2 : St := { (newBB s).2 with retBlock := some s.blocks.length } with hs2
    set s3 : St := { s2 with retValSlot := some s2.nextSlot, nextSlot := s2.nextSlot + 1 } with hs3
    set s4 : St := appendInstr (.storeRet s.nextSlot) s3 with hs4
    set R : St := runCleanups 0 s.blocks.length s4 with hR
    set s7 : St := terminateWith Term.retInstr (setScope s.blocks.length R) with hs7
    have hs3blocks : s3.blocks = s.blocks ++ [⟨[], []⟩] := rfl
    have hs3len : s3.blocks.length = s.blocks.length + 1 := by
      rw [hs3blocks]
      simp
    have hs4len : s4.blocks.length = s.blocks.length + 1 := by
      rw [hs4]
      show (updAt s3.blocks _ _).length = _
      rw [length_updAt]
      exact hs3len
    have hRlen : R.blocks.length = s.blocks.length + 1 + s.cleanups.length := by
      rw [hR, runCleanups_blocksLen, hs4len]
      have : s4.cleanups = s.cleanups := rfl
      rw [this]
      omega
    have hs7len : s7.blocks.length = s.blocks.length + 1 + s.cleanups.length := by
      rw [hs7]
      show (updAt (setScope s.blocks.length R).blocks _ _).length = _
      rw [length_updAt]
      exact hRlen
    have hs4cur : s4.cur = s.cur := rfl
    refine ⟨?_, ?_, ?_, ?_, ?_, ?_⟩
    · show R.retBlock = some s.blocks.length
      rw [hR, runCleanups_retBlock]
      rfl
    · intro _
      show R.retValSlot = some s.nextSlot
      rw [hR, runCleanups_retValSlot]
      rfl
    · show (getBlock (newBB s7).2 s.blocks.length).terms = _
      rw [getBlock_newBB_lt s7 _ (by omega)]
      have hgb : getBlock s7 s.blocks.length
          = ⟨(getBlock R s.blocks.length).instrs,
             (getBlock R s.blocks.length).terms ++ [Term.retInstr]⟩ :=
        getBlock_terminateWith_self (setScope s.blocks.length R) Term.retInstr (by
          show (setScope s.blocks.length R).cur < (setScope s.blocks.length R).blocks.length
          show s.blocks.length < R.blocks.length
          omega)
      rw [hgb]
      have hfr : getBlock R s.blocks.length = getBlock s4 s.blocks.length := by
        rw [hR]
        refine runCleanups_frame 0 s.blocks.length s4 s.blocks.length (by omega) ?_
        show s.blocks.length ≠ s4.cur
        rw [hs4cur]
        omega
      rw [hfr]
      have hget : getBlock s4 s.blocks.length = (⟨[], []⟩ : BB) := by
        rw [hs4, getBlock_appendInstr_ne s3 _ _ (by
          show s.blocks.length ≠ s3.cur
          have : s3.cur = s.cur := rfl
          rw [this]
          omega)]
        show s3.blocks.getD s.blocks.length (⟨[], []⟩ : BB) = (⟨[], []⟩ : BB)
        rw [hs3blocks]
        exact getD_append_len _ _ _
      rw [hget]
      rfl
    · show R.trace = _
      rw [hR, runCleanups_trace]
      have h1 : s4.trace = s.trace := rfl
      have h2 : s4.cleanups = s.cleanups := rfl
      rw [h1, h2, Nat.sub_zero, List.take_length]
    · intro _
      show (getBlock (newBB s7).2 s.cur).instrs = _
      rw [getBlock_newBB_lt s7 _ (by omega)]
      rw [hs7]
      rw [getBlock_terminateWith_ne (setScope s.blocks.length R) _ s.cur (by
        show s.cur ≠ (setScope s.blocks.length R).cur
        show s.cur ≠ s.blocks.length
        omega)]
      have hfr : getBlock (setScope s.blocks.length R) s.cur = getBlock R s.cur := rfl
      rw [hfr]
      have h5 : (getBlock R s.cur).instrs = (getBlock s4 s.cur).instrs := by
        rw [hR]
        exact runCleanups_instrs_cur 0 s.blocks.length s4 (by
          rw [hs4cur, hs4len]
          omega)
      rw [h5, hs4]
      have h6 : getBlock (appendInstr (Instr.storeRet s.nextSlot) s3) s.cur
          = ⟨(getBlock s3 s.cur).instrs ++ [Instr.storeRet s.nextSlot],
             (getBlock s3 s.cur).terms⟩ := by
        have : s3.cur = s.cur := rfl
        rw [← this]
        exact getBlock_appendInstr_self s3 _ (by
          rw [this, hs3len]
          omega)
      rw [h6]
      have h7 : getBlock s3 s.cur = getBlock s s.cur := by
        show s3.blocks.getD s.cur (⟨[], []⟩ : BB) = s.blocks.getD s.cur (⟨[], []⟩ : BB)
        rw [hs3blocks]
        exact getD_append_left _ _ _ _ hcur
      rw [h7]
    · show retCount (newBB s7).2 = _
      rw [retCount_newBB, hs7,
        retCount_terminateWith_ret (setScope s.blocks.length R) _ (by
          show (setScope s.blocks.length R).cur < (setScope s.blocks.length R).blocks.length
          show s.blocks.length < R.blocks.length
          omega) (by rfl)]
      have h1 : retCount (setScope s.blocks.length R) = retCount R := rfl
      rw [h1, hR, retCount_runCleanups, hs4, retCount_appendInstr]
      have h2 : retCount s3 = retCount (newBB s).2 := rfl
      rw [h2, retCount_newBB]

theorem c4aux_subsequent (s : St) (hasVal : Bool) (rb : Nat)
    (hcur : s.cur < s.blocks.length)
    (hB : s.cleanups ≠ []) (hrb : s.retBlock = some rb)
    (hvs : hasVal = true → s.retValSlot.isSome = true) :
    (visitReturn hasVal s).retBlock = some rb ∧
    (visitReturn hasVal s).retValSlot = s.retValSlot ∧
    (visitReturn hasVal s).nextSlot = s.nextSlot ∧
    (visitReturn hasVal s).trace
      = s.trace ++ s.cleanups.map (fun c => Ev.runCleanup c.id) ∧
    (hasVal = true → (getBlock (visitReturn hasVal s) s.cur).instrs
      = (getBlock s s.cur).instrs ++ [.storeRet (s.retValSlot.getD 0)]) ∧
    retCount (visitReturn hasVal s) = retCount s := by
  rw [visitReturn_subsequent_eq s hasVal rb hB hrb]
  cases hasVal
  case false =>
    simp only [Bool.false_eq_true, if_false]
    set R : St := runCleanups 0 rb s with hR
    refine ⟨?_, ?_, ?_, ?_, ?_, ?_⟩
    · show R.retBlock = some rb
      rw [hR, runCleanups_retBlock, hrb]
    · show R.retValSlot = s.retValSlot
      rw [hR, runCleanups_retValSlot]
    · show R.nextSlot = s.nextSlot
      rw [hR, runCleanups_nextSlot]
    · show R.trace = _
      rw [hR, runCleanups_trace, Nat.sub_zero, List.take_length]
    · intro h
      exact absurd h (by simp)
    · show retCount (newBB (setScope rb R)).2 = _
      rw [retCount_newBB]
      have h1 : retCount (setScope rb R) = retCount R := rfl
      rw [h1, hR, retCount_runCleanups]
  case true =>
    simp only [if_true]
    set s4 : St := appendInstr (.storeRet (s.retValSlot.getD 0)) s with hs4
    set R : St := runCleanups 0 rb s4 with hR
    have hs4cur : s4.cur = s.cur := rfl
    have hs4len : s4.blocks.length = s.blocks.length := by
      rw [hs4]
      show (updAt s.blocks _ _).length = _
      rw [length_updAt]
    refine ⟨?_, ?_, ?_, ?_, ?_, ?_⟩
    · show R.retBlock = some rb
      rw [hR, runCleanups_retBlock]
      show s.retBlock = some rb
      exact hrb
    · show R.retValSlot = s.retValSlot
      rw [hR, runCleanups_retValSlot]
      rfl
    · show R.nextSlot = s.nextSlot
      rw [hR, runCleanups_nextSlot]
      rfl
    · show R.trace = _
      rw [hR, runCleanups_trace]
      have h1 : s4.trace = s.trace := rfl
      have h2 : s4.cleanups = s.cleanups := rfl
      rw [h1, h2, Nat.sub_zero, List.take_length]
    · intro _
      show (getBlock (newBB (setScope rb R)).2 s.cur).instrs = _
      have hRlen : R.blocks.length = s.blocks.length + s.cleanups.length := by
        rw [hR, runCleanups_blocksLen, hs4len]
        have : s4.cleanups = s.cleanups := rfl
        rw [this]
        omega
      rw [getBlock_newBB_lt (setScope rb R) _ (by
        show s.cur < R.blocks.length
        omega)]
      have hfr : getBlock (setScope rb R) s.cur = getBlock R s.cur := rfl
      rw [hfr]
      have h5 : (getBlock R s.cur).instrs = (getBlock s4 s.cur).instrs := by
        rw [hR]
        exact runCleanups_instrs_cur 0 rb s4 (by
          rw [hs4cur, hs4len]
          omega)
      rw [h5, hs4]
      have h6 : getBlock (appendInstr (Instr.storeRet (s.retValSlot.getD 0)) s) s.cur
          = ⟨(getBlock s s.cur).instrs ++ [Instr.storeRet (s.retValSlot.getD 0)],
             (getBlock s s.cur).terms⟩ :=
        getBlock_appendInstr_self s _ hcur
      rw [h6]
    · show retCount (newBB (setScope rb R)).2 = _
      rw [retCount_newBB]
      have h1 : retCount (setScope rb R) = retCount R := rfl
      rw [h1, hR, retCount_runCleanups, hs4, retCount_appendInstr]

/-- C4: for every return statement with no pending cleanups, the return
instruction is emitted directly in the current block; with pending
cleanups, the return value is stored to a lazily created shared stack
slot, all cleanups run (innermost first) chaining into a lazily created
shared return block, only the first cleanup-requiring return creates the
slot and block and emits the final return instruction, and every
subsequent cleanup-requiring return reuses both and emits no second
return instruction. -/
theorem c4_return_shared_slot (s : St) (hasVal : Bool)
    (hcur : s.cur < s.blocks.length) :
    (s.cleanups = [] →
      (visitReturn hasVal s).retBlock = s.retBlock ∧
      (visitReturn hasVal s).retValSlot = s.retValSlot ∧
      (visitReturn hasVal s).blocks.length = s.blocks.length + 1 ∧
      (getBlock (visitReturn hasVal s) s.cur).terms
        = (getBlock s s.cur).terms ++ [if hasVal then Term.retInstr else Term.retVoid] ∧
      (visitReturn hasVal s).trace = s.trace ∧
      retCount (visitReturn hasVal s) = retCount s + 1) ∧
    (s.cleanups ≠ [] → s.retBlock = none →
      (visitReturn hasVal s).retBlock = some s.blocks.length ∧
      (hasVal = true → (visitReturn hasVal s).retValSlot = some s.nextSlot) ∧
      (getBlock (visitReturn hasVal s) s.blocks.length).terms
        = [if hasVal then Term.retInstr else Term.retVoid] ∧
      (visitReturn hasVal s).trace
        = s.trace ++ s.cleanups.map (fun c => Ev.runCleanup c.id) ∧
      (hasVal = true → (getBlock (visitReturn hasVal s) s.cur).instrs
        = (getBlock s s.cur).instrs ++ [.storeRet s.nextSlot]) ∧
      retCount (visitReturn hasVal s) = retCount s + 1) ∧
    (∀ rb, s.cleanups ≠ [] → s.retBlock = some rb →
      (hasVal = true → s.retValSlot.isSome = true) →
      (visitReturn hasVal s).retBlock = some rb ∧
      (visitReturn hasVal s).retValSlot = s.retValSlot ∧
      (visitReturn hasVal s).nextSlot = s.nextSlot ∧
      (visitReturn hasVal s).trace
        = s.trace ++ s.cleanups.map (fun c => Ev.runCleanup c.id) ∧
      (hasVal = true → (getBlock (visitReturn hasVal s) s.cur).instrs
        = (getBlock s s.cur).instrs ++ [.storeRet (s.retValSlot.getD 0)]) ∧
      retCount (visitReturn hasVal s) = retCount s) :=
  ⟨fun hA => c4aux_direct s hasVal hcur hA,
   fun hB hrb => c4aux_first s hasVal hcur hB hrb,
   fun rb hB hrb hvs => c4aux_subsequent s hasVal rb hcur hB hrb hvs⟩

/-- Witness for C4: a direct return at the initial state, a first
cleanup-requiring return (creating shared block and slot), and a
subsequent cleanup-requiring return (reusing them, emitting no second
return instruction). -/
theorem c4_witness :
    st0.cleanups = [] ∧ stCleanup.cleanups ≠ [] ∧ stCleanup.retBlock = none ∧
    stRet.cleanups ≠ [] ∧ stRet.retBlock = some 2 ∧
    retCount (visitReturn true st0) = retCount st0 + 1 ∧
    (visitReturn true stCleanup).retBlock = some 2 ∧
    retCount (visitReturn true stRet) = retCount stRet :=
  ⟨by decide, by decide, by decide, by decide, by decide,
   ((c4_return_shared_slot st0 true (by decide)).1 (by decide)).2.2.2.2.2,
   ((c4_return_shared_slot stCleanup true (by decide)).2.1 (by decide) (by decide)).1,
   ((c4_return_shared_slot stRet true (by decide)).2.2 2 (by decide) (by decide)
     (fun _ => by decide)).2.2.2.2.2⟩

theorem blocksLen_terminateWith (t : Term) (s : St) :
    (terminateWith t s).blocks.length = s.blocks.length := by
  simp [terminateWith, length_updAt]

theorem blocksLen_appendInstr (i : Instr) (s : St) :
    (appendInstr i s).blocks.length = s.blocks.length := by
  simp [appendInstr, length_updAt]

theorem blocksLen_breakToClosest (s : St) :
    s.blocks.length ≤ (breakToClosest s).blocks.length := by
  rcases hh : s.loopTargets.head? with _ | t
  · simp only [breakToClosest, hh]
    exact Nat.le_refl _
  · simp only [breakToClosest, hh]
    rw [runCleanups_blocksLen]
    omega

theorem blocksLen_breakToStatement (tid : Nat) (s : St) :
    s.blocks.length ≤ (breakToStatement tid s).blocks.length := by
  rcases hh : s.loopTargets.find? (fun t => t.stmtId == tid) with _ | t
  · simp only [breakToStatement, hh]
    exact Nat.le_refl _
  · simp only [breakToStatement, hh]
    rw [runCleanups_blocksLen]
    omega

theorem blocksLen_continueWithClosest (s : St) :
    s.blocks.length ≤ (continueWithClosest s).blocks.length := by
  rcases hh : s.loopTargets.find? (fun t => t.continueBB.isSome) with _ | t
  · simp only [continueWithClosest, hh]
    exact Nat.le_refl _
  · rcases hc : t.continueBB with _ | c
    · simp only [continueWithClosest, hh, hc]
      exact Nat.le_refl _
    · simp only [continueWithClosest, hh, hc]
      rw [runCleanups_blocksLen]
      omega

theorem blocksLen_continueWithLoop (tid : Nat) (s : St) :
    s.blocks.length ≤ (continueWithLoop tid s).blocks.length := by
  rcases hh : s.loopTargets.find? (fun t => t.stmtId == tid && t.continueBB.isSome)
      with _ | t
  · simp only [continueWithLoop, hh]
    exact Nat.le_refl _
  · rcases hc : t.continueBB with _ | c
    · simp only [continueWithLoop, hh, hc]
      exact Nat.le_refl _
    · simp only [continueWithLoop, hh, hc]
      rw [runCleanups_blocksLen]
      omega

theorem blocksLen_dtoGoto (lbl : Option Nat) (d : Nat) (s : St) :
    s.blocks.length ≤ (dtoGoto lbl d s).blocks.length := by
  rcases lbl with _ | b
  · show s.blocks.length ≤ (terminateWith _ (newBB s).2).blocks.length
    rw [blocksLen_terminateWith]
    show s.blocks.length ≤ (s.blocks ++ [(⟨[], []⟩ : BB)]).length
    simp
  · show s.blocks.length ≤ (runCleanups d b s).blocks.length
    rw [runCleanups_blocksLen]
    omega

theorem fresh_final (s x : St) (h : s.blocks.length ≤ x.blocks.length) :
    freshOpenBlockCurrent s (setScope x.blocks.length (newBB x).2) := by
  refine ⟨h, ?_, ?_, ?_⟩
  · show x.blocks.length < (x.blocks ++ [(⟨[], []⟩ : BB)]).length
    simp
  · show ((x.blocks ++ [(⟨[], []⟩ : BB)]).getD x.blocks.length (⟨[], []⟩ : BB)).instrs = []
    rw [getD_append_len]
  · show ((x.blocks ++ [(⟨[], []⟩ : BB)]).getD x.blocks.length (⟨[], []⟩ : BB)).terms = []
    rw [getD_append_len]

theorem visitReturn_shape (s : St) (hasVal : Bool) :
    ∃ x : St, visitReturn hasVal s = setScope x.blocks.length (newBB x).2 ∧
      s.blocks.length ≤ x.blocks.length := by
  by_cases hA : s.cleanups = []
  · refine ⟨terminateWith (if hasVal then Term.retInstr else Term.retVoid) s,
      visitReturn_noCleanups_eq s hasVal hA, ?_⟩
    rw [blocksLen_terminateWith]
  · rcases hrb : s.retBlock with _ | rb
    · cases hasVal
      · refine ⟨terminateWith Term.retVoid (setScope s.blocks.length
          (runCleanups 0 s.blocks.length
            { (newBB s).2 with retBlock := some s.blocks.length })), ?_, ?_⟩
        · exact visitReturn_first_eq s false hA hrb
        · rw [blocksLen_terminateWith]
          show s.blocks.length ≤ (runCleanups 0 s.blocks.length _).blocks.length
          rw [runCleanups_blocksLen]
          have : ({ (newBB s).2 with retBlock := some s.blocks.length } : St).blocks.length
              = s.blocks.length + 1 := by
            show (s.blocks ++ [(⟨[], []⟩ : BB)]).length = _
            simp
          omega
      · refine ⟨terminateWith Term.retInstr (setScope s.blocks.length
          (runCleanups 0 s.blocks.length
            (appendInstr (.storeRet s.nextSlot)
              { { (newBB s).2 with retBlock := some s.blocks.length } with
                  retValSlot := some ({ (newBB s).2 with
                    retBlock := some s.blocks.length } : St).nextSlot,
                  nextSlot := ({ (newBB s).2 with
                    retBlock := some s.blocks.length } : St).nextSlot + 1 }))), ?_, ?_⟩
        · exact visitReturn_first_eq s true hA hrb
        · rw [blocksLen_terminateWith]
          show s.blocks.length ≤ (runCleanups 0 s.blocks.length _).blocks.length
          rw [runCleanups_blocksLen, blocksLen_appendInstr]
          have : ({ { (newBB s).2 with retBlock := some s.blocks.length } with
              retValSlot := some ({ (newBB s).2 with
                retBlock := some s.blocks.length } : St).nextSlot,
              nextSlot := ({ (newBB s).2 with
                retBlock := some s.blocks.length } : St).nextSlot + 1 } : St).blocks.length
              = s.blocks.length + 1 := by
            show (s.blocks ++ [(⟨[], []⟩ : BB)]).length = _
            simp
          omega
    · cases hasVal
      · refine ⟨setScope rb (runCleanups 0 rb s), ?_, ?_⟩
        · exact visitReturn_subsequent_eq s false rb hA hrb
        · show s.blocks.length ≤ (runCleanups 0 rb s).blocks.length
          rw [runCleanups_blocksLen]
          omega
      · refine ⟨setScope rb (runCleanups 0 rb
          (appendInstr (.storeRet (s.retValSlot.getD 0)) s)), ?_, ?_⟩
        · exact visitReturn_subsequent_eq s true rb hA hrb
        · show s.blocks.length ≤ (runCleanups 0 rb _).blocks.length
          rw [runCleanups_blocksLen, blocksLen_appendInstr]
          omega

/-- C8: for every statement lowering that emits a terminating
instruction — return, break, continue, goto, goto case, goto default,
throw — the engine immediately makes a fresh (possibly dead and
predecessor-less) open block the current insertion point before any
further lowering, so no instruction is appended to an
already-terminated block. -/
theorem c8_fresh_block_after_terminators (s : St) (hasVal : Bool)
    (ident : Option Nat) (lblBB : Option Nat) (lblDepth : Nat)
    (csb : Option Nat) (defBB : Nat) :
    freshOpenBlockCurrent s (visitReturn hasVal s) ∧
    (scopereturned s = false → freshOpenBlockCurrent s (visitBreak ident s)) ∧
    freshOpenBlockCurrent s (visitContinue ident s) ∧
    freshOpenBlockCurrent s (visitGoto lblBB lblDepth s) ∧
    freshOpenBlockCurrent s (visitGotoCase csb s).2 ∧
    freshOpenBlockCurrent s (visitGotoDefault defBB s) ∧
    freshOpenBlockCurrent s (visitThrow s) := by
  refine ⟨?_, ?_, ?_, ?_, ?_, ?_, ?_⟩
  · obtain ⟨x, hx, hle⟩ := visitReturn_shape s hasVal
    rw [hx]
    exact fresh_final s x hle
  · intro hterm
    rcases ident with _ | tid
    · have hv : visitBreak none s
          = setScope (breakToClosest s).blocks.length (newBB (breakToClosest s)).2 := by
        rw [visitBreak, hterm]
        rfl
      rw [hv]
      exact fresh_final s _ (blocksLen_breakToClosest s)
    · have hv : visitBreak (some tid) s
          = setScope (breakToStatement tid s).blocks.length
              (newBB (breakToStatement tid s)).2 := by
        rw [visitBreak, hterm]
        rfl
      rw [hv]
      exact fresh_final s _ (blocksLen_breakToStatement tid s)
  · rcases ident with _ | tid
    · exact fresh_final s _ (blocksLen_continueWithClosest s)
    · exact fresh_final s _ (blocksLen_continueWithLoop tid s)
  · exact fresh_final s _ (blocksLen_dtoGoto lblBB lblDepth s)
  · rcases csb with _ | b
    · have hv : (visitGotoCase none s).2
          = setScope (terminateWith (.br s.blocks.length) (newBB s).2).blocks.length
              (newBB (terminateWith (.br s.blocks.length) (newBB s).2)).2 := rfl
      rw [hv]
      refine fresh_final s _ ?_
      rw [blocksLen_terminateWith]
      show s.blocks.length ≤ (s.blocks ++ [(⟨[], []⟩ : BB)]).length
      simp
    · have hv : (visitGotoCase (some b) s).2
          = setScope (terminateWith (.br b) s).blocks.length
              (newBB (terminateWith (.br b) s)).2 := rfl
      rw [hv]
      refine fresh_final s _ ?_
      rw [blocksLen_terminateWith]
  · have hv : visitGotoDefault defBB s
        = setScope (terminateWith (.br defBB) s).blocks.length
            (newBB (terminateWith (.br defBB) s)).2 := rfl
    rw [hv]
    refine fresh_final s _ ?_
    rw [blocksLen_terminateWith]
  · have hv : visitThrow s
        = setScope (terminateWith .unreachableI (appendInstr .throwCall s)).blocks.length
            (newBB (terminateWith .unreachableI (appendInstr .throwCall s))).2 := rfl
    rw [hv]
    refine fresh_final s _ ?_
    rw [blocksLen_terminateWith, blocksLen_appendInstr]

/-- Witness for C8 at the initial state. -/
theorem c8_witness :
    scopereturned st0 = false ∧
    freshOpenBlockCurrent st0 (visitReturn true st0) ∧
    freshOpenBlockCurrent st0 (visitThrow st0) :=
  ⟨by decide,
   (c8_fresh_block_after_terminators st0 true none none 0 none 0).1,
   (c8_fresh_block_after_terminators st0 true none none 0 none 0).2.2.2.2.2.2⟩

theorem visitTryFinally_eq (b f : St → St) (s : St) (hf : CleanupStable f) :
    visitTryFinally (some b) (some f) s
      = popCleanups s.cleanups.length
          (if !scopereturned (b (tfBodyEntry f s)) then
             setScope (b (tfBodyEntry f s)).blocks.length
               (runCleanups s.cleanups.length (b (tfBodyEntry f s)).blocks.length
                 (newBB (b (tfBodyEntry f s))).2)
           else b (tfBodyEntry f s)) := by
  have h0 : visitTryFinally (some b) (some f) s
      = popCleanups (currentCleanupScope (tfAfterFinally f s))
          (if !scopereturned (b (tfBodyEntry f s)) then
             setScope (b (tfBodyEntry f s)).blocks.length
               (runCleanups (currentCleanupScope (tfAfterFinally f s))
                 (b (tfBodyEntry f s)).blocks.length
                 (newBB (b (tfBodyEntry f s))).2)
           else b (tfBodyEntry f s)) := rfl
  have hcb : currentCleanupScope (tfAfterFinally f s) = s.cleanups.length := by
    show (f (tfFinallyEntry s)).cleanups.length = _
    rw [hf (tfFinallyEntry s)]
    rfl
  rw [h0, hcb]

/-- C2: for every try/finally statement with both a try body and a
finally body, the finally body is lowered once, before the try body, and
pushed as a single cleanup entry; on normal completion of the try body
the cleanups down to the pre-try depth run into a fresh success block and
are then popped, so on the normal-completion path the finally body is
emitted exactly once and the cleanup stack is restored; a return, break
or continue inside the try body (and exception propagation) finds
exactly this one extra cleanup entry on the stack. -/
theorem c2_try_finally_once (s : St) (b f : St → St)
    (hf : CleanupStable f) (hb : CleanupStable b)
    (hft : TraceApp f) (hbt : TraceApp b) :
    ∃ tFin tBody : List Ev,
      (tfAfterFinally f s).trace = s.trace ++ tFin ∧
      (tfBodyEntry f s).cleanups
        = ⟨(tfAfterFinally f s).nextCleanupId, s.blocks.length,
           (tfAfterFinally f s).cur⟩ :: s.cleanups ∧
      (tfBodyEntry f s).trace
        = s.trace ++ tFin ++ [.pushCleanup (tfAfterFinally f s).nextCleanupId] ∧
      (b (tfBodyEntry f s)).trace = (tfBodyEntry f s).trace ++ tBody ∧
      (visitTryFinally (some b) (some f) s).cleanups = s.cleanups ∧
      (scopereturned (b (tfBodyEntry f s)) = false →
        (visitTryFinally (some b) (some f) s).trace
          = s.trace ++ tFin ++ [.pushCleanup (tfAfterFinally f s).nextCleanupId]
              ++ tBody ++ [.runCleanup (tfAfterFinally f s).nextCleanupId,
                           .popCleanup (tfAfterFinally f s).nextCleanupId] ∧
        (visitTryFinally (some b) (some f) s).cur
          = (b (tfBodyEntry f s)).blocks.length) ∧
      (scopereturned (b (tfBodyEntry f s)) = true →
        (visitTryFinally (some b) (some f) s).trace
          = s.trace ++ tFin ++ [.pushCleanup (tfAfterFinally f s).nextCleanupId]
              ++ tBody ++ [.popCleanup (tfAfterFinally f s).nextCleanupId]) := by
  obtain ⟨tFin, htFin⟩ := hft (tfFinallyEntry s)
  obtain ⟨tBody, htBody⟩ := hbt (tfBodyEntry f s)
  set cid := (tfAfterFinally f s).nextCleanupId with hcid
  have hAFtrace : (tfAfterFinally f s).trace = s.trace ++ tFin := by
    rw [show (tfFinallyEntry s).trace = s.trace from rfl] at htFin
    exact htFin
  have hAFcl : (tfAfterFinally f s).cleanups = s.cleanups := by
    show (f (tfFinallyEntry s)).cleanups = _
    rw [hf (tfFinallyEntry s)]
    rfl
  have hBEcl : (tfBodyEntry f s).cleanups
      = ⟨cid, s.blocks.length, (tfAfterFinally f s).cur⟩ :: s.cleanups := by
    show (pushCleanup s.blocks.length (tfAfterFinally f s).cur (tfAfterFinally f s)).cleanups = _
    rw [pushCleanup]
    rw [hAFcl]
  have hBEtrace : (tfBodyEntry f s).trace
      = s.trace ++ tFin ++ [.pushCleanup cid] := by
    show (pushCleanup s.blocks.length (tfAfterFinally f s).cur (tfAfterFinally f s)).trace = _
    rw [pushCleanup]
    show (tfAfterFinally f s).trace ++ [Ev.pushCleanup cid] = _
    rw [hAFtrace]
  have hS2cl : (b (tfBodyEntry f s)).cleanups
      = ⟨cid, s.blocks.length, (tfAfterFinally f s).cur⟩ :: s.cleanups := by
    rw [hb (tfBodyEntry f s), hBEcl]
  have hS2clLen : (b (tfBodyEntry f s)).cleanups.length = s.cleanups.length + 1 := by
    rw [hS2cl]
    simp
  have hS2trace : (b (tfBodyEntry f s)).trace
      = s.trace ++ tFin ++ [.pushCleanup cid] ++ tBody := by
    rw [htBody, hBEtrace]
  refine ⟨tFin, tBody, hAFtrace, hBEcl, hBEtrace, htBody, ?_, ?_, ?_⟩
  · rw [visitTryFinally_eq b f s hf]
    rcases hsr : scopereturned (b (tfBodyEntry f s)) with _ | _
    · simp only [hsr, Bool.not_false, if_true]
      obtain ⟨_, _, hpc, _⟩ := popCleanups_fields s.cleanups.length
        (setScope (b (tfBodyEntry f s)).blocks.length
          (runCleanups s.cleanups.length (b (tfBodyEntry f s)).blocks.length
            (newBB (b (tfBodyEntry f s))).2))
      rw [hpc]
      have h1 : (setScope (b (tfBodyEntry f s)).blocks.length
          (runCleanups s.cleanups.length (b (tfBodyEntry f s)).blocks.length
            (newBB (b (tfBodyEntry f s))).2)).cleanups
          = (b (tfBodyEntry f s)).cleanups := by
        show (runCleanups s.cleanups.length (b (tfBodyEntry f s)).blocks.length
          (newBB (b (tfBodyEntry f s))).2).cleanups = _
        rw [runCleanups_cleanups]
        rfl
      rw [h1, hS2cl]
      simp
    · simp only [hsr, Bool.not_true, Bool.false_eq_true, if_false]
      obtain ⟨_, _, hpc, _⟩ := popCleanups_fields s.cleanups.length (b (tfBodyEntry f s))
      rw [hpc, hS2cl]
      simp
  · intro hsr
    rw [visitTryFinally_eq b f s hf]
    simp only [hsr, Bool.not_false, if_true]
    set X : St := setScope (b (tfBodyEntry f s)).blocks.length
      (runCleanups s.cleanups.length (b (tfBodyEntry f s)).blocks.length
        (newBB (b (tfBodyEntry f s))).2) with hX
    have hXcl : X.cleanups
        = ⟨cid, s.blocks.length, (tfAfterFinally f s).cur⟩ :: s.cleanups := by
      rw [hX]
      show (runCleanups s.cleanups.length (b (tfBodyEntry f s)).blocks.length
        (newBB (b (tfBodyEntry f s))).2).cleanups = _
      rw [runCleanups_cleanups]
      show (b (tfBodyEntry f s)).cleanups = _
      exact hS2cl
    have hXtrace : X.trace
        = s.trace ++ tFin ++ [.pushCleanup cid] ++ tBody ++ [.runCleanup cid] := by
      rw [hX]
      show (runCleanups s.cleanups.length (b (tfBodyEntry f s)).blocks.length
        (newBB (b (tfBodyEntry f s))).2).trace = _
      rw [runCleanups_trace]
      have h2 : (newBB (b (tfBodyEntry f s))).2.cleanups = (b (tfBodyEntry f s)).cleanups := rfl
      have h3 : (newBB (b (tfBodyEntry f s))).2.trace = (b (tfBodyEntry f s)).trace := rfl
      rw [h2, h3, hS2cl, hS2trace]
      simp
    constructor
    · obtain ⟨_, _, _, hpc, _⟩ := popCleanups_fields s.cleanups.length X
      rw [hpc, hXcl, hXtrace]
      simp
    · obtain ⟨_, hcur, _⟩ := popCleanups_fields s.cleanups.length X
      rw [hcur, hX]
      rfl
  · intro hsr
    rw [visitTryFinally_eq b f s hf]
    simp only [hsr, Bool.not_true, Bool.false_eq_true, if_false]
    obtain ⟨_, _, _, hpc, _⟩ := popCleanups_fields s.cleanups.length (b (tfBodyEntry f s))
    rw [hpc, hS2cl, hS2trace]
    simp

theorem cleanupStable_visitExpStatement (tag : Nat) :
    CleanupStable (visitExpStatement tag) :=
  fun _ => rfl

theorem catchStable_visitExpStatement (tag : Nat) :
    CatchStable (visitExpStatement tag) :=
  fun _ => rfl

theorem registerCatchScopes_spec (cbs : List CatchE) (s : St) :
    (registerCatchScopes cbs s).catchScopes = cbs.reverse ++ s.catchScopes ∧
    (registerCatchScopes cbs s).trace
      = s.trace ++ cbs.map (fun cb => Ev.pushCatch cb.classId cb.bb) ∧
    (registerCatchScopes cbs s).blocks = s.blocks ∧
    (registerCatchScopes cbs s).cur = s.cur := by
  induction cbs generalizing s with
  | nil => exact ⟨rfl, by simp [registerCatchScopes], rfl, rfl⟩
  | cons cb rest ih =>
    obtain ⟨h1, h2, h3, h4⟩ := ih (pushCatch cb.classId cb.bb s)
    have e1 : registerCatchScopes (cb :: rest) s
        = registerCatchScopes rest (pushCatch cb.classId cb.bb s) := rfl
    refine ⟨?_, ?_, ?_, ?_⟩
    · rw [e1, h1]
      show rest.reverse ++ (⟨cb.classId, cb.bb⟩ :: s.catchScopes) = _
      simp
    · rw [e1, h2]
      show (s.trace ++ [Ev.pushCatch cb.classId cb.bb]) ++ _ = _
      simp
    · rw [e1, h3]
      rfl
    · rw [e1, h4]
      rfl

theorem popCatchFold_spec (l : List Nat) (s : St) :
    (l.foldl (fun s _ => popCatch s) s).catchScopes = s.catchScopes.drop l.length ∧
    (l.foldl (fun s _ => popCatch s) s).trace
      = s.trace ++ List.replicate l.length Ev.popCatch ∧
    (l.foldl (fun s _ => popCatch s) s).blocks = s.blocks := by
  induction l generalizing s with
  | nil => exact ⟨rfl, by simp, rfl⟩
  | cons a rest ih =>
    obtain ⟨h1, h2, h3⟩ := ih (popCatch s)
    refine ⟨?_, ?_, ?_⟩
    · rw [List.foldl_cons, h1]
      show s.catchScopes.tail.drop rest.length = _
      rw [← List.drop_one, List.drop_drop]
      simp [Nat.add_comm]
    · rw [List.foldl_cons, h2]
      show (s.trace ++ [Ev.popCatch]) ++ _ = _
      simp [List.replicate_succ]
    · rw [List.foldl_cons, h3]
      rfl

theorem lowerCatchBodies_stable (e : Nat) (cs : List CatchClause) (s : St)
    (hh : ∀ c ∈ cs, ∀ g, c.handler = some g → CatchStable g) :
    (lowerCatchBodies e cs s).2.catchScopes = s.catchScopes ∧
    (lowerCatchBodies e cs s).1.map (fun cb => cb.classId)
      = cs.map (fun c => c.classId) := by
  induction cs generalizing s with
  | nil => exact ⟨rfl, rfl⟩
  | cons c rest ih =>
    have hmid : ∀ x : St,
        (match c.handler with
         | some h => h x
         | none => x).catchScopes = x.catchScopes := by
      intro x
      rcases hc : c.handler with _ | g
      · rfl
      · exact hh c (by simp) g hc x
    set x0 : St := appendInstr .enterCatch (setScope s.blocks.length (newBB s).2) with hx0
    set x1 : St := (match c.handler with
      | some h => h x0
      | none => x0) with hx1
    set x2 : St := if !scopereturned x1 then terminateWith (.br e) x1 else x1 with hx2
    have e1 : lowerCatchBodies e (c :: rest) s
        = (⟨c.classId, s.blocks.length⟩ :: (lowerCatchBodies e rest x2).1,
           (lowerCatchBodies e rest x2).2) := rfl
    have hx0c : x0.catchScopes = s.catchScopes := rfl
    have hx1c : x1.catchScopes = s.catchScopes := by
      rw [hx1, hmid x0, hx0c]
    have hx2c : x2.catchScopes = s.catchScopes := by
      rw [hx2]
      rcases hsr : scopereturned x1 with _ | _
      · simp only [hsr, Bool.not_false, if_true]
        show x1.catchScopes = _
        exact hx1c
      · simp only [hsr, Bool.not_true, Bool.false_eq_true, if_false]
        exact hx1c
    obtain ⟨i1, i2⟩ := ih x2 (fun c hc g hg => hh c (by simp [hc]) g hg)
    refine ⟨?_, ?_⟩
    · rw [e1]
      show (lowerCatchBodies e rest x2).2.catchScopes = _
      rw [i1, hx2c]
    · rw [e1]
      show c.classId :: (lowerCatchBodies e rest x2).1.map (fun cb => cb.classId) = _
      rw [i2]
      rfl

theorem lowerCatchBodies_append (e : Nat) (l1 l2 : List CatchClause) (s : St) :
    (lowerCatchBodies e (l1 ++ l2) s).2
      = (lowerCatchBodies e l2 (lowerCatchBodies e l1 s).2).2 := by
  induction l1 generalizing s with
  | nil => rfl
  | cons c rest ih =>
    have e1 : ∀ l : List CatchClause,
        (lowerCatchBodies e (c :: l) s).2
          = (lowerCatchBodies e l
              ((fun x1 => if !scopereturned x1 then terminateWith (.br e) x1 else x1)
                (match c.handler with
                 | some h => h (appendInstr .enterCatch (setScope s.blocks.length (newBB s).2))
                 | none => appendInstr .enterCatch (setScope s.blocks.length (newBB s).2)))).2 := by
      intro l
      rfl
    rw [show ((c :: rest) ++ l2) = c :: (rest ++ l2) from rfl, e1 (rest ++ l2), e1 rest]
    exact ih _

theorem traceApp_visitExpStatement (tag : Nat) :
    TraceApp (visitExpStatement tag) :=
  fun _ => ⟨[.lowered tag], rfl⟩

/-- Witness for C2 with concrete opaque expression statements as the try
and finally bodies. -/
theorem c2_witness :
    CleanupStable (visitExpStatement 1) ∧
    (visitTryFinally (some (visitExpStatement 2)) (some (visitExpStatement 1)) st0).cleanups
      = st0.cleanups := by
  refine ⟨cleanupStable_visitExpStatement 1, ?_⟩
  obtain ⟨tFin, tBody, _, _, _, _, h5, _⟩ :=
    c2_try_finally_once st0 (visitExpStatement 2) (visitExpStatement 1)
      (cleanupStable_visitExpStatement 1) (cleanupStable_visitExpStatement 2)
      (traceApp_visitExpStatement 1) (traceApp_visitExpStatement 2)
  exact h5

/-- C3: for every try/catch statement (explicit landing-pad strategy)
the catch entries are pushed onto the catch scope stack only after every
catch body has been lowered (the state of the catch stack while any
catch body is lowered is the incoming one), they are pushed in reverse
source order so the first-declared catch sits on top of the stack and is
probed first, and exactly one entry per catch is popped after the try
body completes, restoring the incoming stack; hence a throw inside one
catch body never sees that statement's own catches as active
handlers. -/
theorem c3_try_catch_registration (s : St) (body : St → St)
    (catches : List CatchClause)
    (hb : CatchStable body)
    (hhs : ∀ c ∈ catches, ∀ g, c.handler = some g → CatchStable g) :
    (∀ cs1 cs2, catches.reverse = cs1 ++ cs2 →
      ((lowerCatchBodies s.blocks.length cs1 (newBB s).2).2).catchScopes
        = s.catchScopes) ∧
    ((registerCatchScopes
        (lowerCatchBodies s.blocks.length catches.reverse (newBB s).2).1
        (lowerCatchBodies s.blocks.length catches.reverse (newBB s).2).2).catchScopes.map
          (fun cb => cb.classId)
      = catches.map (fun c => c.classId)
          ++ s.catchScopes.map (fun cb => cb.classId)) ∧
    ((registerCatchScopes
        (lowerCatchBodies s.blocks.length catches.reverse (newBB s).2).1
        (lowerCatchBodies s.blocks.length catches.reverse (newBB s).2).2).trace
      = (lowerCatchBodies s.blocks.length catches.reverse (newBB s).2).2.trace
          ++ (lowerCatchBodies s.blocks.length catches.reverse (newBB s).2).1.map
              (fun cb => Ev.pushCatch cb.classId cb.bb)) ∧
    (visitTryCatch body catches s).catchScopes = s.catchScopes := by
  have hhsrev : ∀ c ∈ catches.reverse, ∀ g, c.handler = some g → CatchStable g := by
    intro c hc
    exact hhs c (List.mem_reverse.mp hc)
  obtain ⟨hstab, hmap⟩ :=
    lowerCatchBodies_stable s.blocks.length catches.reverse (newBB s).2 hhsrev
  have hnewcatch : ((newBB s).2).catchScopes = s.catchScopes := rfl
  set cbs := (lowerCatchBodies s.blocks.length catches.reverse (newBB s).2).1 with hcbs
  set sA := (lowerCatchBodies s.blocks.length catches.reverse (newBB s).2).2 with hsA
  obtain ⟨r1, r2, _⟩ := registerCatchScopes_spec cbs sA
  have hcbslen : cbs.length = catches.length := by
    have := congrArg List.length hmap
    simpa using this
  refine ⟨?_, ?_, ?_, ?_⟩
  · intro cs1 cs2 hsplit
    obtain ⟨h1, _⟩ := lowerCatchBodies_stable s.blocks.length cs1 (newBB s).2
      (fun c hc g hg => hhsrev c (by rw [hsplit]; exact List.mem_append_left _ hc) g hg)
    rw [h1]
    rfl
  · rw [r1, hstab, hnewcatch]
    have hrevmap : cbs.reverse.map (fun cb => cb.classId)
        = catches.map (fun c => c.classId) := by
      rw [List.map_reverse, hmap, ← List.map_reverse, List.reverse_reverse]
    rw [List.map_append, hrevmap]
  · exact r2
  · have e1 : (visitTryCatch body catches s).catchScopes
        = ((List.range cbs.length).foldl (fun s _ => popCatch s)
            (if !scopereturned (body (setScope s.cur (registerCatchScopes cbs sA)))
             then terminateWith (.br s.blocks.length)
               (body (setScope s.cur (registerCatchScopes cbs sA)))
             else body (setScope s.cur (registerCatchScopes cbs sA)))).catchScopes := rfl
    rw [e1]
    obtain ⟨p1, _⟩ := popCatchFold_spec (List.range cbs.length)
      (if !scopereturned (body (setScope s.cur (registerCatchScopes cbs sA)))
       then terminateWith (.br s.blocks.length)
         (body (setScope s.cur (registerCatchScopes cbs sA)))
       else body (setScope s.cur (registerCatchScopes cbs sA)))
    rw [p1]
    have hcond : (if !scopereturned (body (setScope s.cur (registerCatchScopes cbs sA)))
        then terminateWith (.br s.blocks.length)
          (body (setScope s.cur (registerCatchScopes cbs sA)))
        else body (setScope s.cur (registerCatchScopes cbs sA))).catchScopes
        = (body (setScope s.cur (registerCatchScopes cbs sA))).catchScopes := by
      rcases hsr : scopereturned (body (setScope s.cur (registerCatchScopes cbs sA)))
          with _ | _
      · simp only [hsr, Bool.not_false, if_true]
        rfl
      · simp only [hsr, Bool.not_true, Bool.false_eq_true, if_false]
    rw [hcond, hb (setScope s.cur (registerCatchScopes cbs sA))]
    have hsc : (setScope s.cur (registerCatchScopes cbs sA)).catchScopes
        = cbs.reverse ++ s.catchScopes := by
      show (registerCatchScopes cbs sA).catchScopes = _
      rw [r1, hstab, hnewcatch]
    rw [hsc, List.length_range,
      show cbs.length = cbs.reverse.length by simp]
    exact List.drop_left _ _

/-- Witness for C3: a try/catch with two catches (one with a handler,
one with an empty handler) around an opaque expression statement. -/
theorem c3_witness :
    CatchStable (visitExpStatement 7) ∧
    (visitTryCatch (visitExpStatement 7)
        [⟨10, some (visitExpStatement 5)⟩, ⟨11, none⟩] st0).catchScopes
      = st0.catchScopes := by
  refine ⟨catchStable_visitExpStatement 7, ?_⟩
  have hhs : ∀ c ∈ ([⟨10, some (visitExpStatement 5)⟩, ⟨11, none⟩] : List CatchClause),
      ∀ g, c.handler = some g → CatchStable g := by
    intro c hc g hg
    simp only [List.mem_cons, List.not_mem_nil, or_false] at hc
    rcases hc with rfl | rfl
    · cases hg
      exact catchStable_visitExpStatement 5
    · cases hg
  exact (c3_try_catch_registration st0 (visitExpStatement 7)
    [⟨10, some (visitExpStatement 5)⟩, ⟨11, none⟩]
    (catchStable_visitExpStatement 7) hhs).2.2.2

theorem rangeMapShift (c0 n : Nat) :
    (List.range (n + 1)).map (fun i => c0 + i)
      = c0 :: (List.range n).map (fun i => (c0 + 1) + i) := by
  rw [List.range_succ_eq_map]
  simp only [List.map_cons, List.map_map, Nat.add_zero, List.cons.injEq, true_and]
  apply List.map_congr_left
  intro a _
  simp [Function.comp]
  omega

theorem getD_append_replicate {α : Type} (l : List α) (m j : Nat) (e d : α)
    (hj : j < m) :
    (l ++ List.replicate m e).getD (l.length + j) d = e := by
  induction l with
  | nil =>
    simp only [List.nil_append, List.length_nil, Nat.zero_add]
    induction m generalizing j with
    | zero => omega
    | succ k ih =>
      cases j with
      | zero => rfl
      | succ j' =>
        simp only [List.replicate_succ, List.getD_cons_succ]
        exact ih j' (by omega)
  | cons a as ih =>
    simp only [List.cons_append, List.length_cons]
    have : as.length + 1 + j = (as.length + j) + 1 := by omega
    rw [this, List.getD_cons_succ]
    exact ih

theorem newBBFold_spec (l : List Nat) (s : St) :
    (l.foldl (fun s _ => (newBB s).2) s).blocks
      = s.blocks ++ List.replicate l.length (⟨[], []⟩ : BB) ∧
    (l.foldl (fun s _ => (newBB s).2) s).cur = s.cur ∧
    (l.foldl (fun s _ => (newBB s).2) s).cleanups = s.cleanups ∧
    (l.foldl (fun s _ => (newBB s).2) s).loopTargets = s.loopTargets ∧
    (l.foldl (fun s _ => (newBB s).2) s).trace = s.trace := by
  induction l generalizing s with
  | nil => exact ⟨by simp, rfl, rfl, rfl, rfl⟩
  | cons a rest ih =>
    obtain ⟨h1, h2, h3, h4, h5⟩ := ih (newBB s).2
    refine ⟨?_, ?_, ?_, ?_, ?_⟩
    · rw [List.foldl_cons, h1]
      show (s.blocks ++ [(⟨[], []⟩ : BB)]) ++ _ = _
      rw [List.append_assoc]
      simp [List.replicate_succ]
    · rw [List.foldl_cons, h2]
      rfl
    · rw [List.foldl_cons, h3]
      rfl
    · rw [List.foldl_cons, h4]
      rfl
    · rw [List.foldl_cons, h5]
      rfl

theorem demoChild_segment (d : DemoChild) (stmtId c0 endbb nextbb : Nat) (s : St)
    (hc0 : c0 < s.blocks.length)
    (hempty : getBlock s c0 = ⟨[], []⟩) :
    ∀ s5 : St,
      s5 = (if !scopereturned (popLoopTarget (demoChildF d
              (pushLoopTarget stmtId nextbb endbb (setScope c0 s))))
            then terminateWith (.br nextbb) (popLoopTarget (demoChildF d
              (pushLoopTarget stmtId nextbb endbb (setScope c0 s))))
            else popLoopTarget (demoChildF d
              (pushLoopTarget stmtId nextbb endbb (setScope c0 s)))) →
      getBlock s5 c0 = demoExpected endbb nextbb d ∧
      s.blocks.length ≤ s5.blocks.length ∧
      scopereturned s5 = true ∧
      (∀ b, b < s.blocks.length → b ≠ c0 → getBlock s5 b = getBlock s b) := by
  intro s5 hs5
  set s2 : St := pushLoopTarget stmtId nextbb endbb (setScope c0 s) with hs2
  have hs2cur : s2.cur = c0 := rfl
  have hs2blocks : s2.blocks = s.blocks := rfl
  have hs2get : getBlock s2 c0 = (⟨[], []⟩ : BB) := hempty
  cases d
  case exp t =>
    have h3 : getBlock (popLoopTarget (demoChildF (.exp t) s2)) c0
        = (⟨[Instr.stmtCode t], []⟩ : BB) := by
      show getBlock (appendInstr (.stmtCode t) s2) c0 = _
      have := getBlock_appendInstr_self s2 (.stmtCode t) (by rw [hs2cur, hs2blocks]; exact hc0)
      rw [hs2cur] at this
      rw [this, hs2get]
      rfl
    have hsr : scopereturned (popLoopTarget (demoChildF (.exp t) s2)) = false := by
      show (!(getBlock (popLoopTarget (demoChildF (.exp t) s2))
        (popLoopTarget (demoChildF (.exp t) s2)).cur).terms.isEmpty) = false
      have hcur : (popLoopTarget (demoChildF (.exp t) s2)).cur = c0 := rfl
      rw [hcur, h3]
      rfl
    rw [hsr] at hs5
    simp only [Bool.not_false, if_true] at hs5
    have hlen3 : (popLoopTarget (demoChildF (.exp t) s2)).blocks.length
        = s.blocks.length := by
      show (appendInstr (.stmtCode t) s2).blocks.length = _
      rw [blocksLen_appendInstr]
      rw [hs2blocks]
    have hcur3 : (popLoopTarget (demoChildF (.exp t) s2)).cur = c0 := rfl
    refine ⟨?_, ?_, ?_, ?_⟩
    · rw [hs5]
      have := getBlock_terminateWith_self (popLoopTarget (demoChildF (.exp t) s2))
        (.br nextbb) (by rw [hcur3, hlen3]; exact hc0)
      rw [hcur3] at this
      rw [this, h3]
      rfl
    · rw [hs5, blocksLen_terminateWith, hlen3]
    · rw [hs5]
      show (!(getBlock (terminateWith (Term.br nextbb)
          (popLoopTarget (demoChildF (.exp t) s2)))
        (terminateWith (Term.br nextbb)
          (popLoopTarget (demoChildF (.exp t) s2))).cur).terms.isEmpty) = true
      have hcurT : (terminateWith (Term.br nextbb)
          (popLoopTarget (demoChildF (.exp t) s2))).cur = c0 := rfl
      rw [hcurT]
      have := getBlock_terminateWith_self (popLoopTarget (demoChildF (.exp t) s2))
        (.br nextbb) (by rw [hcur3, hlen3]; exact hc0)
      rw [hcur3] at this
      rw [this, h3]
      rfl
    · intro b hb hbne
      rw [hs5, getBlock_terminateWith_ne _ _ b (by rw [hcur3]; exact hbne)]
      show getBlock (appendInstr (.stmtCode t) s2) b = _
      rw [getBlock_appendInstr_ne s2 _ b (by rw [hs2cur]; exact hbne)]
      exact rfl
  case brk =>
    have hsr2 : scopereturned s2 = false := by
      show (!(getBlock s2 s2.cur).terms.isEmpty) = false
      rw [hs2cur, hs2get]
      rfl
    have hcollapse : breakToClosest s2
        = terminateWith (.br endbb) s2 := by
      show terminateWith (.br endbb)
        ((s2.cleanups.take (s2.cleanups.length - s.cleanups.length)).foldl
          runCleanupStep s2) = _
      have h0 : s2.cleanups.length - s.cleanups.length = 0 := by
        show s.cleanups.length - s.cleanups.length = 0
        omega
      rw [h0, List.take_zero, List.foldl_nil]
    have hvb : demoChildF DemoChild.brk s2
        = setScope (terminateWith (.br endbb) s2).blocks.length
            (newBB (terminateWith (.br endbb) s2)).2 := by
      show visitBreak none s2 = _
      rw [visitBreak, hsr2]
      show setScope (newBB (breakToClosest s2)).1 (newBB (breakToClosest s2)).2 = _
      rw [hcollapse]
      rfl
    set sB : St := terminateWith (.br endbb) s2 with hsB
    have hsBlen : sB.blocks.length = s.blocks.length := by
      rw [hsB, blocksLen_terminateWith, hs2blocks]
    have hsBc0 : getBlock sB c0 = (⟨[], [.br endbb]⟩ : BB) := by
      rw [hsB]
      have := getBlock_terminateWith_self s2 (.br endbb) (by
        rw [hs2cur, hs2blocks]
        exact hc0)
      rw [hs2cur] at this
      rw [this, hs2get]
      rfl
    have hs4 : popLoopTarget (demoChildF DemoChild.brk s2)
        = popLoopTarget (setScope sB.blocks.length (newBB sB).2) := by
      rw [hvb, hsB]
    have hget4 : ∀ b, b < sB.blocks.length →
        getBlock (popLoopTarget (setScope sB.blocks.length (newBB sB).2)) b
          = getBlock sB b := by
      intro b hb
      show (sB.blocks ++ [(⟨[], []⟩ : BB)]).getD b (⟨[], []⟩ : BB) = _
      exact getD_append_left _ _ _ _ hb
    have hget4len : getBlock (popLoopTarget (setScope sB.blocks.length (newBB sB).2))
        sB.blocks.length = (⟨[], []⟩ : BB) := by
      show (sB.blocks ++ [(⟨[], []⟩ : BB)]).getD sB.blocks.length (⟨[], []⟩ : BB) = _
      exact getD_append_len _ _ _
    have hsr4 : scopereturned (popLoopTarget (demoChildF DemoChild.brk s2)) = false := by
      rw [hs4]
      show (!(getBlock (popLoopTarget (setScope sB.blocks.length (newBB sB).2))
        sB.blocks.length).terms.isEmpty) = false
      rw [hget4len]
      rfl
    rw [hsr4] at hs5
    simp only [Bool.not_false, if_true] at hs5
    rw [hs4] at hs5
    have hcur4 : (popLoopTarget (setScope sB.blocks.length (newBB sB).2)).cur
        = sB.blocks.length := rfl
    have hlen4 : (popLoopTarget (setScope sB.blocks.length (newBB sB).2)).blocks.length
        = sB.blocks.length + 1 := by
      show (sB.blocks ++ [(⟨[], []⟩ : BB)]).length = _
      simp
    refine ⟨?_, ?_, ?_, ?_⟩
    · rw [hs5, getBlock_terminateWith_ne _ _ c0 (by
        rw [hcur4, hsBlen]
        omega)]
      rw [hget4 c0 (by rw [hsBlen]; exact hc0), hsBc0]
      rfl
    · rw [hs5, blocksLen_terminateWith, hlen4, hsBlen]
      omega
    · rw [hs5]
      show (!(getBlock (terminateWith (Term.br nextbb)
          (popLoopTarget (setScope sB.blocks.length (newBB sB).2)))
        (terminateWith (Term.br nextbb)
          (popLoopTarget (setScope sB.blocks.length (newBB sB).2))).cur).terms.isEmpty) = true
      have hcT : (terminateWith (Term.br nextbb)
          (popLoopTarget (setScope sB.blocks.length (newBB sB).2))).cur
          = sB.blocks.length := rfl
      rw [hcT]
      have := getBlock_terminateWith_self
        (popLoopTarget (setScope sB.blocks.length (newBB sB).2)) (Term.br nextbb) (by
          rw [hcur4, hlen4]
          omega)
      rw [hcur4] at this
      rw [this, hget4len]
      rfl
    · intro b hb hbne
      rw [hs5, getBlock_terminateWith_ne _ _ b (by
        rw [hcur4, hsBlen]
        omega)]
      rw [hget4 b (by rw [hsBlen]; omega), hsB,
        getBlock_terminateWith_ne s2 _ b (by rw [hs2cur]; exact hbne)]
      rfl
  case cont =>
    have hsr2 : scopereturned s2 = false := by
      show (!(getBlock s2 s2.cur).terms.isEmpty) = false
      rw [hs2cur, hs2get]
      rfl
    have hcollapse : continueWithClosest s2
        = terminateWith (.br nextbb) s2 := by
      show terminateWith (.br nextbb)
        ((s2.cleanups.take (s2.cleanups.length - s.cleanups.length)).foldl
          runCleanupStep s2) = _
      have h0 : s2.cleanups.length - s.cleanups.length = 0 := by
        show s.cleanups.length - s.cleanups.length = 0
        omega
      rw [h0, List.take_zero, List.foldl_nil]
    have hvb : demoChildF DemoChild.cont s2
        = setScope (terminateWith (.br nextbb) s2).blocks.length
            (newBB (terminateWith (.br nextbb) s2)).2 := by
      show visitContinue none s2 = _
      rw [visitContinue]
      show setScope (newBB (continueWithClosest s2)).1 (newBB (continueWithClosest s2)).2 = _
      rw [hcollapse]
      rfl
    set sB : St := terminateWith (.br nextbb) s2 with hsB
    have hsBlen : sB.blocks.length = s.blocks.length := by
      rw [hsB, blocksLen_terminateWith, hs2blocks]
    have hsBc0 : getBlock sB c0 = (⟨[], [.br nextbb]⟩ : BB) := by
      rw [hsB]
      have := getBlock_terminateWith_self s2 (.br nextbb) (by
        rw [hs2cur, hs2blocks]
        exact hc0)
      rw [hs2cur] at this
      rw [this, hs2get]
      rfl
    have hs4 : popLoopTarget (demoChildF DemoChild.cont s2)
        = popLoopTarget (setScope sB.blocks.length (newBB sB).2) := by
      rw [hvb, hsB]
    have hget4 : ∀ b, b < sB.blocks.length →
        getBlock (popLoopTarget (setScope sB.blocks.length (newBB sB).2)) b
          = getBlock sB b := by
      intro b hb
      show (sB.blocks ++ [(⟨[], []⟩ : BB)]).getD b (⟨[], []⟩ : BB) = _
      exact getD_append_left _ _ _ _ hb
    have hget4len : getBlock (popLoopTarget (setScope sB.blocks.length (newBB sB).2))
        sB.blocks.length = (⟨[], []⟩ : BB) := by
      show (sB.blocks ++ [(⟨[], []⟩ : BB)]).getD sB.blocks.length (⟨[], []⟩ : BB) = _
      exact getD_append_len _ _ _
    have hsr4 : scopereturned (popLoopTarget (demoChildF DemoChild.cont s2)) = false := by
      rw [hs4]
      show (!(getBlock (popLoopTarget (setScope sB.blocks.length (newBB sB).2))
        sB.blocks.length).terms.isEmpty) = false
      rw [hget4len]
      rfl
    rw [hsr4] at hs5
    simp only [Bool.not_false, if_true] at hs5
    rw [hs4] at hs5
    have hcur4 : (popLoopTarget (setScope sB.blocks.length (newBB sB).2)).cur
        = sB.blocks.length := rfl
    have hlen4 : (popLoopTarget (setScope sB.blocks.length (newBB sB).2)).blocks.length
        = sB.blocks.length + 1 := by
      show (sB.blocks ++ [(⟨[], []⟩ : BB)]).length = _
      simp
    refine ⟨?_, ?_, ?_, ?_⟩
    · rw [hs5, getBlock_terminateWith_ne _ _ c0 (by
        rw [hcur4, hsBlen]
        omega)]
      rw [hget4 c0 (by rw [hsBlen]; exact hc0), hsBc0]
      rfl
    · rw [hs5, blocksLen_terminateWith, hlen4, hsBlen]
      omega
    · rw [hs5]
      show (!(getBlock (terminateWith (Term.br nextbb)
          (popLoopTarget (setScope sB.blocks.length (newBB sB).2)))
        (terminateWith (Term.br nextbb)
          (popLoopTarget (setScope sB.blocks.length (newBB sB).2))).cur).terms.isEmpty) = true
      have hcT : (terminateWith (Term.br nextbb)
          (popLoopTarget (setScope sB.blocks.length (newBB sB).2))).cur
          = sB.blocks.length := rfl
      rw [hcT]
      have := getBlock_terminateWith_self
        (popLoopTarget (setScope sB.blocks.length (newBB sB).2)) (Term.br nextbb) (by
          rw [hcur4, hlen4]
          omega)
      rw [hcur4] at this
      rw [this, hget4len]
      rfl
    · intro b hb hbne
      rw [hs5, getBlock_terminateWith_ne _ _ b (by
        rw [hcur4, hsBlen]
        omega)]
      rw [hget4 b (by rw [hsBlen]; omega), hsB,
        getBlock_terminateWith_ne s2 _ b (by rw [hs2cur]; exact hbne)]
      rfl

theorem lowerUnrolledDemo (stmtId : Nat) (ds : List DemoChild) (c0 : Nat) (s : St)
    (hlen : c0 + ds.length ≤ s.blocks.length)
    (hempty : ∀ j, j < ds.length → getBlock s (c0 + j) = ⟨[], []⟩) :
    (∀ j, ∀ hj : j < ds.length,
      getBlock (lowerUnrolledChildren stmtId (c0 + ds.length)
          ((ds.map demoChildF).zip ((List.range ds.length).map (fun i => c0 + i))) s)
        (c0 + j)
        = demoExpected (c0 + ds.length) (c0 + j + 1) (ds.get ⟨j, hj⟩)) ∧
    (∀ b, b < s.blocks.length → (∀ j, j < ds.length → b ≠ c0 + j) →
      getBlock (lowerUnrolledChildren stmtId (c0 + ds.length)
          ((ds.map demoChildF).zip ((List.range ds.length).map (fun i => c0 + i))) s) b
        = getBlock s b) ∧
    (ds ≠ [] → scopereturned (lowerUnrolledChildren stmtId (c0 + ds.length)
        ((ds.map demoChildF).zip ((List.range ds.length).map (fun i => c0 + i))) s)
        = true) := by
  induction ds generalizing c0 s with
  | nil =>
    exact ⟨fun j hj => absurd hj (by simp), fun b _ _ => rfl, fun h => absurd rfl h⟩
  | cons d rest ih =>
    have hzip : ((d :: rest).map demoChildF).zip
        ((List.range (d :: rest).length).map (fun i => c0 + i))
        = (demoChildF d, c0) ::
          ((rest.map demoChildF).zip
            ((List.range rest.length).map (fun i => (c0 + 1) + i))) := by
      show ((demoChildF d :: rest.map demoChildF).zip
        ((List.range (rest.length + 1)).map (fun i => c0 + i))) = _
      rw [rangeMapShift]
      rfl
    have e1 : lowerUnrolledChildren stmtId (c0 + (rest.length + 1))
        ((demoChildF d, c0) ::
          ((rest.map demoChildF).zip
            ((List.range rest.length).map (fun i => (c0 + 1) + i)))) s
        = lowerUnrolledChildren stmtId (c0 + (rest.length + 1))
            ((rest.map demoChildF).zip
              ((List.range rest.length).map (fun i => (c0 + 1) + i)))
            (if !scopereturned (popLoopTarget (demoChildF d
                (pushLoopTarget stmtId (c0 + 1) (c0 + (rest.length + 1)) (setScope c0 s))))
             then terminateWith (.br (c0 + 1)) (popLoopTarget (demoChildF d
                (pushLoopTarget stmtId (c0 + 1) (c0 + (rest.length + 1)) (setScope c0 s))))
             else popLoopTarget (demoChildF d
                (pushLoopTarget stmtId (c0 + 1) (c0 + (rest.length + 1)) (setScope c0 s)))) := by
      cases rest with
      | nil => rfl
      | cons r rs =>
        simp only [List.length_cons]
        rw [rangeMapShift]
        rfl
    set s5 : St := (if !scopereturned (popLoopTarget (demoChildF d
        (pushLoopTarget stmtId (c0 + 1) (c0 + (rest.length + 1)) (setScope c0 s))))
      then terminateWith (.br (c0 + 1)) (popLoopTarget (demoChildF d
        (pushLoopTarget stmtId (c0 + 1) (c0 + (rest.length + 1)) (setScope c0 s))))
      else popLoopTarget (demoChildF d
        (pushLoopTarget stmtId (c0 + 1) (c0 + (rest.length + 1)) (setScope c0 s)))) with hs5def
    obtain ⟨seg1, seg2, seg3, seg4⟩ :=
      demoChild_segment d stmtId c0 (c0 + (rest.length + 1)) (c0 + 1) s
        (by simp at hlen; omega)
        (by have := hempty 0 (by simp); simpa using this) s5 hs5def
    have hlen' : (c0 + 1) + rest.length ≤ s5.blocks.length := by
      have h1 : (c0 + 1) + rest.length = c0 + (rest.length + 1) := by omega
      simp only [List.length_cons] at hlen
      omega
    have hempty' : ∀ j, j < rest.length → getBlock s5 ((c0 + 1) + j) = ⟨[], []⟩ := by
      intro j hj
      have hb : (c0 + 1) + j < s.blocks.length := by
        simp only [List.length_cons] at hlen
        omega
      rw [seg4 ((c0 + 1) + j) hb (by omega)]
      have := hempty (j + 1) (by simp; omega)
      rw [show c0 + (j + 1) = (c0 + 1) + j by omega] at this
      exact this
    obtain ⟨ih1, ih2, ih3⟩ := ih (c0 + 1) s5 hlen' hempty'
    have hE : c0 + (d :: rest).length = (c0 + 1) + rest.length := by
      simp
      omega
    have hgoalE : lowerUnrolledChildren stmtId (c0 + (d :: rest).length)
        (((d :: rest).map demoChildF).zip
          ((List.range (d :: rest).length).map (fun i => c0 + i))) s
        = lowerUnrolledChildren stmtId ((c0 + 1) + rest.length)
            ((rest.map demoChildF).zip
              ((List.range rest.length).map (fun i => (c0 + 1) + i))) s5 := by
      rw [hzip]
      rw [show c0 + (d :: rest).length = c0 + (rest.length + 1) by simp]
      rw [e1]
      rw [show c0 + (rest.length + 1) = (c0 + 1) + rest.length by omega]
    refine ⟨?_, ?_, ?_⟩
    · intro j hj
      rw [hgoalE]
      cases j with
      | zero =>
        have hfr : getBlock (lowerUnrolledChildren stmtId ((c0 + 1) + rest.length)
            ((rest.map demoChildF).zip
              ((List.range rest.length).map (fun i => (c0 + 1) + i))) s5) (c0 + 0)
            = getBlock s5 (c0 + 0) := by
          apply ih2
          · show c0 + 0 < s5.blocks.length
            have : c0 < s.blocks.length := by
              simp only [List.length_cons] at hlen
              omega
            omega
          · intro j hj
            omega
        rw [hfr]
        have : getBlock s5 (c0 + 0) = getBlock s5 c0 := by norm_num
        rw [this, seg1]
        show demoExpected (c0 + (rest.length + 1)) (c0 + 1) d
          = demoExpected (c0 + (d :: rest).length) (c0 + 0 + 1) d
        rw [show c0 + (d :: rest).length = c0 + (rest.length + 1) by simp,
          show c0 + 0 + 1 = c0 + 1 by omega]
      | succ j' =>
        have hj' : j' < rest.length := by
          simp only [List.length_cons] at hj
          omega
        rw [show c0 + (j' + 1) = (c0 + 1) + j' by omega]
        rw [show c0 + (d :: rest).length = (c0 + 1) + rest.length by
          simp only [List.length_cons]; omega]
        rw [ih1 j' hj']
        rfl
    · intro b hb hbne
      rw [hgoalE]
      have h1 : getBlock (lowerUnrolledChildren stmtId ((c0 + 1) + rest.length)
          ((rest.map demoChildF).zip
            ((List.range rest.length).map (fun i => (c0 + 1) + i))) s5) b
          = getBlock s5 b := by
        apply ih2
        · omega
        · intro j hj
          have := hbne (j + 1) (by simp; omega)
          omega
      rw [h1]
      exact seg4 b hb (hbne 0 (by simp))
    · intro _
      rw [hgoalE]
      cases hrest : rest with
      | nil =>
        subst hrest
        show scopereturned s5 = true
        exact seg3
      | cons r rs =>
        subst hrest
        exact ih3 (by simp)

/-- C7: for every unrolled-loop statement over demo children (an
expression statement, an unlabeled break, an unlabeled continue), each
child j is lowered in its own block `base + j` (base = first fresh
block) under a loop target whose continue block is the next child's
block and whose break block is the end block `base + k`: a break child's
block holds exactly a branch to the end block, bypassing all later
children; a continue child's block branches to the next child's block
(the end block for the last child, since `base + (k-1) + 1 = base + k`);
an expression child's block holds its code and falls through with a
branch to the next child's block; the previously current block branches
into the first child's block, and the end block becomes the current
insertion point. -/
theorem c7_unrolled_loop_targets (stmtId : Nat) (ds : List DemoChild) (s : St)
    (hne : ds ≠ []) (hsr : scopereturned s = false)
    (hcur : s.cur < s.blocks.length) :
    (∀ j, ∀ hj : j < ds.length,
      getBlock (visitUnrolledLoop stmtId (ds.map demoChildF) s) (s.blocks.length + j)
        = demoExpected (s.blocks.length + ds.length) (s.blocks.length + j + 1)
            (ds.get ⟨j, hj⟩)) ∧
    getBlock (visitUnrolledLoop stmtId (ds.map demoChildF) s) s.cur
      = ⟨(getBlock s s.cur).instrs,
         (getBlock s s.cur).terms ++ [.br s.blocks.length]⟩ ∧
    (visitUnrolledLoop stmtId (ds.map demoChildF) s).cur
      = s.blocks.length + ds.length := by
  cases ds with
  | nil => exact absurd rfl hne
  | cons d rest =>
    set S1 : St := (List.range ((d :: rest).map demoChildF).length).foldl
        (fun s _ => (newBB s).2) s with hS1def
    set S2 : St := (newBB S1).2 with hS2def
    set S3 : St := if !scopereturned S2
        then terminateWith (.br s.blocks.length) S2 else S2 with hS3def
    set S4 : St := lowerUnrolledChildren stmtId S1.blocks.length
        (((d :: rest).map demoChildF).zip
          ((List.range ((d :: rest).map demoChildF).length).map
            (fun i => s.blocks.length + i))) S3 with hS4def
    have hres : visitUnrolledLoop stmtId ((d :: rest).map demoChildF) s
        = setScope S1.blocks.length
            (if !scopereturned S4 then terminateWith (.br S1.blocks.length) S4 else S4) :=
      rfl
    have hm : ((d :: rest).map demoChildF).length = rest.length + 1 := by simp
    obtain ⟨hb1, hb2, _, _, _⟩ := newBBFold_spec
      (List.range ((d :: rest).map demoChildF).length) s
    rw [← hS1def] at hb1 hb2
    have hb1' : S1.blocks = s.blocks ++ List.replicate (rest.length + 1) (⟨[], []⟩ : BB) := by
      rw [hb1, List.length_range, hm]
    have hS1len : S1.blocks.length = s.blocks.length + (rest.length + 1) := by
      rw [hb1']
      simp
    have hcur2 : S2.cur = s.cur := by
      rw [hS2def]
      show S1.cur = s.cur
      exact hb2
    have hS2blocks : S2.blocks
        = s.blocks ++ List.replicate (rest.length + 2) (⟨[], []⟩ : BB) := by
      rw [hS2def]
      show S1.blocks ++ [(⟨[], []⟩ : BB)] = _
      rw [hb1', List.append_assoc, ← List.replicate_succ']
    have hS2len : S2.blocks.length = s.blocks.length + (rest.length + 2) := by
      rw [hS2blocks]
      simp
    have hgbS2cur : getBlock S2 s.cur = getBlock s s.cur := by
      show S2.blocks.getD s.cur _ = _
      rw [hS2blocks]
      exact getD_append_left _ _ _ _ hcur
    have hsr2 : scopereturned S2 = false := by
      show (!(getBlock S2 S2.cur).terms.isEmpty) = false
      rw [hcur2, hgbS2cur]
      exact hsr
    have hS3eq : S3 = terminateWith (.br s.blocks.length) S2 := by
      rw [hS3def, hsr2]
      rfl
    have hS3len : S3.blocks.length = s.blocks.length + (rest.length + 2) := by
      rw [hS3eq]
      show (updAt S2.blocks S2.cur _).length = _
      rw [length_updAt, hS2len]
    have hempty3 : ∀ j, j < (d :: rest).length →
        getBlock S3 (s.blocks.length + j) = ⟨[], []⟩ := by
      intro j hj
      rw [hS3eq, getBlock_terminateWith_ne S2 _ _ (by rw [hcur2]; omega)]
      show S2.blocks.getD (s.blocks.length + j) _ = _
      rw [hS2blocks]
      exact getD_append_replicate _ _ _ _ _ (by simp only [List.length_cons] at hj; omega)
    have hlen3 : s.blocks.length + (d :: rest).length ≤ S3.blocks.length := by
      rw [hS3len]
      simp only [List.length_cons]
      omega
    obtain ⟨L1, L2, L3⟩ :=
      lowerUnrolledDemo stmtId (d :: rest) s.blocks.length S3 hlen3 hempty3
    have hS4eq : S4 = lowerUnrolledChildren stmtId (s.blocks.length + (d :: rest).length)
        (((d :: rest).map demoChildF).zip
          ((List.range (d :: rest).length).map (fun i => s.blocks.length + i))) S3 := by
      rw [hS4def]
      rw [show S1.blocks.length = s.blocks.length + (d :: rest).length by
        rw [hS1len]; simp]
      rw [show ((d :: rest).map demoChildF).length = (d :: rest).length by simp]
    have hsr4 : scopereturned S4 = true := by
      rw [hS4eq]
      exact L3 (by simp)
    have hres2 : visitUnrolledLoop stmtId ((d :: rest).map demoChildF) s
        = setScope S1.blocks.length S4 := by
      rw [hres, hsr4]
      rfl
    refine ⟨?_, ?_, ?_⟩
    · intro j hj
      rw [hres2]
      show getBlock S4 (s.blocks.length + j) = _
      rw [hS4eq]
      exact L1 j hj
    · rw [hres2]
      show getBlock S4 s.cur = _
      rw [hS4eq]
      rw [L2 s.cur (by rw [hS3len]; omega) (fun j hj => by omega)]
      rw [hS3eq]
      have hsel := getBlock_terminateWith_self S2 (.br s.blocks.length)
        (by rw [hcur2, hS2len]; omega)
      rw [hcur2] at hsel
      rw [hsel, hgbS2cur]
    · rw [hres2]
      show S1.blocks.length = s.blocks.length + (d :: rest).length
      rw [hS1len]
      simp

theorem c7_witness :
    scopereturned st0 = false ∧ st0.cur < st0.blocks.length ∧
    getBlock (visitUnrolledLoop 9 ([DemoChild.exp 0, DemoChild.brk, DemoChild.cont,
        DemoChild.exp 3].map demoChildF) st0) 2 = ⟨[], [.br 5]⟩ ∧
    getBlock (visitUnrolledLoop 9 ([DemoChild.exp 0, DemoChild.brk, DemoChild.cont,
        DemoChild.exp 3].map demoChildF) st0) 3 = ⟨[], [.br 4]⟩ ∧
    getBlock (visitUnrolledLoop 9 ([DemoChild.exp 0, DemoChild.brk, DemoChild.cont,
        DemoChild.exp 3].map demoChildF) st0) 0 = ⟨[], [.br 1]⟩ ∧
    (visitUnrolledLoop 9 ([DemoChild.exp 0, DemoChild.brk, DemoChild.cont,
        DemoChild.exp 3].map demoChildF) st0).cur = 5 := by
  have h := c7_unrolled_loop_targets 9
    [DemoChild.exp 0, DemoChild.brk, DemoChild.cont, DemoChild.exp 3] st0
    (by decide) (by decide) (by decide)
  exact ⟨by decide, by decide, h.1 1 (by decide), h.1 2 (by decide), h.2.1, h.2.2⟩

theorem caseNonConst_not_const (c : CaseExp) :
    caseNonConst c = !(isCompileTimeConstant c) := by
  cases c <;> simp [caseNonConst, isCompileTimeConstant]

theorem computeUseSwitchInst_foldl (cs : List CaseExp) :
    ∀ acc : Bool,
      cs.foldl (fun acc c => if caseNonConst c then false else acc) acc
        = (acc && cs.all isCompileTimeConstant) := by
  induction cs with
  | nil =>
    intro acc
    simp
  | cons c rest ih =>
    intro acc
    rw [List.foldl_cons, ih]
    cases hc : isCompileTimeConstant c <;>
      simp [caseNonConst_not_const, hc, List.all_cons]

theorem execFrom_stop (s : St) (stops : List Nat) (b : Nat) (fuel : Nat)
    (hb : b ∈ stops) : execFrom s stops b (fuel + 1) = some b := by
  simp only [execFrom]
  rw [if_pos hb]

theorem execFrom_step (s : St) (stops : List Nat) (b : Nat) (fuel : Nat)
    (hb : b ∉ stops) :
    execFrom s stops b (fuel + 1)
      = (match (getBlock s b).terms.head? with
         | some (.br t) => execFrom s stops t fuel
         | some (.condBr a c t f) => execFrom s stops (if a = c then t else f) fuel
         | some (.switchI v cs d) => execFrom s stops (switchDest v cs d) fuel
         | _ => none) := by
  simp only [execFrom]
  rw [if_neg hb]

theorem lowerLinearCases_frame (condVal : Int) (dflt : Nat) (ps : List (Int × Nat)) :
    ∀ (s : St) (b : Nat), b < s.blocks.length → b ≠ s.cur →
      getBlock (lowerLinearCases false condVal dflt ps s) b = getBlock s b := by
  induction ps with
  | nil =>
    intro s b _ hne
    exact getBlock_terminateWith_ne s _ b hne
  | cons p rest ih =>
    obtain ⟨v, bodyBB⟩ := p
    intro s b hb hne
    have hstep : lowerLinearCases false condVal dflt ((v, bodyBB) :: rest) s
        = lowerLinearCases false condVal dflt rest
            (setScope (appendInstr (.icmpEq v condVal) s).blocks.length
              (terminateWith (.condBr v condVal bodyBB
                  (appendInstr (.icmpEq v condVal) s).blocks.length)
                (newBB (appendInstr (.icmpEq v condVal) s)).2)) := rfl
    set s1 : St := appendInstr (.icmpEq v condVal) s with hs1
    set s4 : St := setScope s1.blocks.length
        (terminateWith (.condBr v condVal bodyBB s1.blocks.length) (newBB s1).2) with hs4d
    have hs1len : s1.blocks.length = s.blocks.length := by
      show (updAt s.blocks s.cur _).length = s.blocks.length
      exact length_updAt _ _ _
    have hs4len : s4.blocks.length = s.blocks.length + 1 := by
      show (updAt (s1.blocks ++ [(⟨[], []⟩ : BB)]) s1.cur _).length = s.blocks.length + 1
      rw [length_updAt, List.length_append, hs1len]
      rfl
    have hs4cur : s4.cur = s.blocks.length := by
      show s1.blocks.length = s.blocks.length
      exact hs1len
    rw [hstep]
    rw [ih s4 b (by rw [hs4len]; omega) (by rw [hs4cur]; omega)]
    show getBlock (terminateWith (.condBr v condVal bodyBB s1.blocks.length) (newBB s1).2) b
      = getBlock s b
    rw [getBlock_terminateWith_ne (newBB s1).2 _ b (show b ≠ (newBB s1).2.cur from hne)]
    rw [getBlock_newBB_lt s1 b (by rw [hs1len]; exact hb)]
    exact getBlock_appendInstr_ne s _ b hne

theorem lowerLinearCases_exec (condVal : Int) (dflt : Nat) (ps : List (Int × Nat)) :
    ∀ (s : St) (stops : List Nat),
      s.cur < s.blocks.length →
      getBlock s s.cur = ⟨[], []⟩ →
      (∀ p, p ∈ ps → p.2 ∈ stops) →
      dflt ∈ stops →
      (∀ b, b ∈ stops → b < s.blocks.length) →
      s.cur ∉ stops →
      execFrom (lowerLinearCases false condVal dflt ps s) stops s.cur (ps.length + 2)
        = some ((firstMatch condVal ps).getD dflt) := by
  induction ps with
  | nil =>
    intro s stops hcur hopen _ hdflt _ hnot
    show execFrom (terminateWith (.br dflt) s) stops s.cur (1 + 1) = some dflt
    rw [execFrom_step _ _ _ _ hnot]
    have hg : getBlock (terminateWith (.br dflt) s) s.cur
        = ⟨(getBlock s s.cur).instrs, [.br dflt]⟩ := by
      rw [getBlock_terminateWith_self s _ hcur, hopen]
      rfl
    rw [hg]
    show execFrom (terminateWith (.br dflt) s) stops dflt (0 + 1) = some dflt
    exact execFrom_stop _ _ _ 0 hdflt
  | cons p rest ih =>
    obtain ⟨v, bodyBB⟩ := p
    intro s stops hcur hopen hstops hdflt hlt hnot
    have hstep : lowerLinearCases false condVal dflt ((v, bodyBB) :: rest) s
        = lowerLinearCases false condVal dflt rest
            (setScope (appendInstr (.icmpEq v condVal) s).blocks.length
              (terminateWith (.condBr v condVal bodyBB
                  (appendInstr (.icmpEq v condVal) s).blocks.length)
                (newBB (appendInstr (.icmpEq v condVal) s)).2)) := rfl
    set s1 : St := appendInstr (.icmpEq v condVal) s with hs1
    set s4 : St := setScope s1.blocks.length
        (terminateWith (.condBr v condVal bodyBB s1.blocks.length) (newBB s1).2) with hs4d
    have hs1len : s1.blocks.length = s.blocks.length := by
      show (updAt s.blocks s.cur _).length = s.blocks.length
      exact length_updAt _ _ _
    have hs4len : s4.blocks.length = s.blocks.length + 1 := by
      show (updAt (s1.blocks ++ [(⟨[], []⟩ : BB)]) s1.cur _).length = s.blocks.length + 1
      rw [length_updAt, List.length_append, hs1len]
      rfl
    have hs4cur : s4.cur = s.blocks.length := by
      show s1.blocks.length = s.blocks.length
      exact hs1len
    have hcur4 : s4.cur < s4.blocks.length := by
      rw [hs4cur, hs4len]
      omega
    have hopen4 : getBlock s4 s4.cur = ⟨[], []⟩ := by
      show getBlock (terminateWith (.condBr v condVal bodyBB s1.blocks.length) (newBB s1).2)
          s1.blocks.length = ⟨[], []⟩
      rw [getBlock_terminateWith_ne (newBB s1).2 _ _
        (show s1.blocks.length ≠ (newBB s1).2.cur from by
          show s1.blocks.length ≠ s.cur
          rw [hs1len]
          omega)]
      exact getBlock_newBB_len s1
    have hstops4 : ∀ p, p ∈ rest → p.2 ∈ stops :=
      fun p hp => hstops p (List.mem_cons_of_mem _ hp)
    have hlt4 : ∀ b, b ∈ stops → b < s4.blocks.length := by
      intro b hb
      rw [hs4len]
      have := hlt b hb
      omega
    have hnot4 : s4.cur ∉ stops := by
      rw [hs4cur]
      intro hmem
      have := hlt _ hmem
      omega
    have hframe : getBlock (lowerLinearCases false condVal dflt rest s4) s.cur
        = getBlock s4 s.cur :=
      lowerLinearCases_frame condVal dflt rest s4 s.cur
        (by rw [hs4len]; omega) (by rw [hs4cur]; omega)
    have hgb4 : getBlock s4 s.cur
        = ⟨[.icmpEq v condVal], [.condBr v condVal bodyBB s1.blocks.length]⟩ := by
      show getBlock (terminateWith (.condBr v condVal bodyBB s1.blocks.length) (newBB s1).2)
          s.cur = _
      have hc2 : (newBB s1).2.cur = s.cur := rfl
      rw [← hc2, getBlock_terminateWith_self _ _
        (show (newBB s1).2.cur < (newBB s1).2.blocks.length from by
          show s.cur < (s1.blocks ++ [(⟨[], []⟩ : BB)]).length
          rw [List.length_append, hs1len]
          simp only [List.length_cons, List.length_nil]
          omega), hc2]
      rw [getBlock_newBB_lt s1 s.cur (by rw [hs1len]; exact hcur)]
      rw [hs1, getBlock_appendInstr_self s _ hcur, hopen]
      rfl
    rw [hstep]
    show execFrom (lowerLinearCases false condVal dflt rest s4) stops s.cur
        ((rest.length + 2) + 1)
      = some ((firstMatch condVal ((v, bodyBB) :: rest)).getD dflt)
    rw [execFrom_step _ _ _ _ hnot, hframe, hgb4]
    show execFrom (lowerLinearCases false condVal dflt rest s4) stops
        (if v = condVal then bodyBB else s1.blocks.length) (rest.length + 2)
      = some ((firstMatch condVal ((v, bodyBB) :: rest)).getD dflt)
    by_cases hv : v = condVal
    · rw [if_pos hv]
      have hfm : firstMatch condVal ((v, bodyBB) :: rest) = some bodyBB := by
        simp [firstMatch, hv]
      rw [hfm]
      show execFrom (lowerLinearCases false condVal dflt rest s4) stops bodyBB
          ((rest.length + 1) + 1) = some bodyBB
      exact execFrom_stop _ _ _ _ (hstops (v, bodyBB) (by simp))
    · rw [if_neg hv]
      have hfm : firstMatch condVal ((v, bodyBB) :: rest) = firstMatch condVal rest := by
        simp [firstMatch, hv]
      rw [hfm]
      show execFrom (lowerLinearCases false condVal dflt rest s4) stops s4.cur
          (rest.length + 2) = some ((firstMatch condVal rest).getD dflt)
      exact ih s4 stops hcur4 hopen4 hstops4 hdflt hlt4 hnot4

/-- C5: the multi-way-branch (table) strategy is chosen if and only if
every case label is a compile-time constant (the strategy-choice loop of
`visit(SwitchStatement)` computes exactly `all isCompileTimeConstant`);
in the fallback, the linear-compare chain emitted by `lowerSwitchLinear`
dispatches by equality comparisons tried in source order — executing
the emitted graph from the old block reaches the body block of the first
case whose value matches the controlling value, and the default block
(or the end block when no default exists) when none matches; under the
table strategy a single multi-way branch is emitted in the old block,
and its destination is the same first-match-or-default target. -/
theorem c5_switch_strategy_dispatch (cs : List CaseExp) (condVal : Int)
    (pairs : List (Int × Nat)) (defbb : Option Nat) (endbb : Nat) (s : St)
    (stops : List Nat)
    (hcur : s.cur < s.blocks.length)
    (hopen : getBlock s s.cur = ⟨[], []⟩)
    (hstops : ∀ p, p ∈ pairs → p.2 ∈ stops)
    (hdflt : defbb.getD endbb ∈ stops)
    (hlt : ∀ b, b ∈ stops → b < s.blocks.length)
    (hnot : s.cur ∉ stops) :
    computeUseSwitchInst cs = cs.all isCompileTimeConstant ∧
    execFrom (lowerSwitchLinear false condVal pairs defbb endbb s) stops s.cur
        (pairs.length + 3)
      = some ((firstMatch condVal pairs).getD (defbb.getD endbb)) ∧
    getBlock (lowerSwitchTable condVal pairs defbb endbb s) s.cur
      = ⟨(getBlock s s.cur).instrs, [.switchI condVal pairs (defbb.getD endbb)]⟩ ∧
    switchDest condVal pairs (defbb.getD endbb)
      = (firstMatch condVal pairs).getD (defbb.getD endbb) := by
  refine ⟨?_, ?_, ?_, ?_⟩
  · show cs.foldl (fun acc c => if caseNonConst c then false else acc) true = _
    rw [computeUseSwitchInst_foldl cs true]
    simp
  · have hsl : lowerSwitchLinear false condVal pairs defbb endbb s
        = lowerLinearCases false condVal (defbb.getD endbb) pairs
            (setScope s.blocks.length
              (terminateWith (.br s.blocks.length) (newBB s).2)) := rfl
    set sE : St := setScope s.blocks.length
        (terminateWith (.br s.blocks.length) (newBB s).2) with hsE
    have hsElen : sE.blocks.length = s.blocks.length + 1 := by
      show (updAt (s.blocks ++ [(⟨[], []⟩ : BB)]) s.cur _).length = s.blocks.length + 1
      rw [length_updAt, List.length_append]
      rfl
    have hsEcur : sE.cur = s.blocks.length := rfl
    have hopenE : getBlock sE sE.cur = ⟨[], []⟩ := by
      show getBlock (terminateWith (.br s.blocks.length) (newBB s).2) s.blocks.length = _
      rw [getBlock_terminateWith_ne (newBB s).2 _ _
        (show s.blocks.length ≠ (newBB s).2.cur from by
          show s.blocks.length ≠ s.cur
          omega)]
      exact getBlock_newBB_len s
    have hgbE : getBlock sE s.cur = ⟨(getBlock s s.cur).instrs, [.br s.blocks.length]⟩ := by
      show getBlock (terminateWith (.br s.blocks.length) (newBB s).2) s.cur = _
      have hc2 : (newBB s).2.cur = s.cur := rfl
      rw [← hc2, getBlock_terminateWith_self _ _
        (show (newBB s).2.cur < (newBB s).2.blocks.length from by
          show s.cur < (s.blocks ++ [(⟨[], []⟩ : BB)]).length
          rw [List.length_append]
          simp only [List.length_cons, List.length_nil]
          omega), hc2]
      rw [getBlock_newBB_lt s s.cur hcur, hopen]
      rfl
    have hframeE : getBlock (lowerLinearCases false condVal (defbb.getD endbb) pairs sE) s.cur
        = getBlock sE s.cur :=
      lowerLinearCases_frame condVal (defbb.getD endbb) pairs sE s.cur
        (by rw [hsElen]; omega) (by rw [hsEcur]; omega)
    have hmain := lowerLinearCases_exec condVal (defbb.getD endbb) pairs sE stops
      (by rw [hsEcur, hsElen]; omega) hopenE hstops hdflt
      (by intro b hb; rw [hsElen]; have := hlt b hb; omega)
      (by rw [hsEcur]; intro hmem; have := hlt _ hmem; omega)
    rw [hsEcur] at hmain
    rw [hsl]
    show execFrom (lowerLinearCases false condVal (defbb.getD endbb) pairs sE) stops s.cur
        ((pairs.length + 2) + 1)
      = some ((firstMatch condVal pairs).getD (defbb.getD endbb))
    rw [execFrom_step _ _ _ _ hnot, hframeE, hgbE]
    show execFrom (lowerLinearCases false condVal (defbb.getD endbb) pairs sE) stops
        s.blocks.length (pairs.length + 2)
      = some ((firstMatch condVal pairs).getD (defbb.getD endbb))
    exact hmain
  · show getBlock (terminateWith (.switchI condVal pairs (defbb.getD endbb)) s) s.cur = _
    rw [getBlock_terminateWith_self s _ hcur, hopen]
    rfl
  · cases h : pairs.find? (fun p => p.1 == condVal) with
    | none => simp [switchDest, firstMatch, h]
    | some p => simp [switchDest, firstMatch, h]

theorem c5_witness :
    (stSw.cur < stSw.blocks.length ∧ getBlock stSw stSw.cur = ⟨[], []⟩ ∧
      (∀ p, p ∈ [((5 : Int), 1), ((7 : Int), 2)] → p.2 ∈ [1, 2, 3]) ∧
      (some 3).getD 3 ∈ [1, 2, 3] ∧
      (∀ b, b ∈ [1, 2, 3] → b < stSw.blocks.length) ∧ stSw.cur ∉ [1, 2, 3]) ∧
    computeUseSwitchInst [CaseExp.intConst 5, CaseExp.varExp true false 7]
      = [CaseExp.intConst 5, CaseExp.varExp true false 7].all isCompileTimeConstant ∧
    computeUseSwitchInst [CaseExp.intConst 5, CaseExp.varExp true false 7] = false ∧
    execFrom (lowerSwitchLinear false 7 [((5 : Int), 1), ((7 : Int), 2)] (some 3) 3 stSw)
        [1, 2, 3] stSw.cur ([((5 : Int), 1), ((7 : Int), 2)].length + 3)
      = some ((firstMatch 7 [((5 : Int), 1), ((7 : Int), 2)]).getD ((some 3).getD 3)) ∧
    (firstMatch 7 [((5 : Int), 1), ((7 : Int), 2)]).getD ((some 3).getD 3) = 2 ∧
    switchDest 7 [((5 : Int), 1), ((7 : Int), 2)] ((some 3).getD 3)
      = (firstMatch 7 [((5 : Int), 1), ((7 : Int), 2)]).getD ((some 3).getD 3) := by
  have h := c5_switch_strategy_dispatch
    [CaseExp.intConst 5, CaseExp.varExp true false 7] 7
    [((5 : Int), 1), ((7 : Int), 2)] (some 3) 3 stSw [1, 2, 3]
    (by decide) (by decide) (by decide) (by decide) (by decide) (by decide)
  exact ⟨⟨by decide, by decide, by decide, by decide, by decide, by decide⟩,
    h.1, by decide, h.2.1, by decide, h.2.2.2⟩

theorem charToNat_inj (x y : Char) (h : x.toNat = y.toNat) : x = y :=
  Char.ext (UInt32.toNat.inj h)

theorem memcmpChars_antisymm (a : List Char) :
    ∀ b : List Char, memcmpChars a b = -(memcmpChars b a) := by
  induction a with
  | nil =>
    intro b
    cases b <;> simp [memcmpChars]
  | cons x xs ih =>
    intro b
    cases b with
    | nil => simp [memcmpChars]
    | cons y ys =>
      by_cases h : x = y
      · subst h
        simp [memcmpChars, ih ys]
      · have h' : ¬(y = x) := fun hh => h hh.symm
        simp only [memcmpChars, if_neg h, if_neg h']
        omega

theorem memcmpChars_nil_le (b : List Char) : memcmpChars [] b ≤ 0 := by
  cases b with
  | nil => simp [memcmpChars]
  | cons y ys =>
    simp only [memcmpChars]
    omega

theorem memcmpChars_le_trans (a : List Char) :
    ∀ b c : List Char, memcmpChars a b ≤ 0 → memcmpChars b c ≤ 0 →
      memcmpChars a c ≤ 0 := by
  induction a with
  | nil =>
    intro b c _ _
    exact memcmpChars_nil_le c
  | cons x xs ih =>
    intro b c hab hbc
    cases b with
    | nil =>
      exfalso
      simp only [memcmpChars] at hab
      omega
    | cons y ys =>
      cases c with
      | nil =>
        exfalso
        simp only [memcmpChars] at hbc
        omega
      | cons z zs =>
        simp only [memcmpChars] at hab hbc ⊢
        by_cases hxy : x = y
        · subst hxy
          rw [if_pos rfl] at hab
          by_cases hxz : x = z
          · subst hxz
            rw [if_pos rfl] at hbc
            rw [if_pos rfl]
            exact ih ys zs hab hbc
          · rw [if_neg hxz] at hbc
            rw [if_neg hxz]
            omega
        · rw [if_neg hxy] at hab
          have hxylt : x.toNat < y.toNat := by
            have hne : x.toNat ≠ y.toNat := fun hh => hxy (charToNat_inj x y hh)
            omega
          by_cases hyz : y = z
          · subst hyz
            rw [if_neg hxy]
            omega
          · rw [if_neg hyz] at hbc
            have hyzlt : y.toNat < z.toNat := by
              have hne : y.toNat ≠ z.toNat := fun hh => hyz (charToNat_inj y z hh)
              omega
            have hxz : ¬(x = z) := by
              intro hh
              subst hh
              omega
            rw [if_neg hxz]
            omega

theorem caseLt_false_iff (a b : SCase) :
    (caseLt b a = false) ↔ strCmp a.str b.str ≤ 0 := by
  simp only [caseLt, decide_eq_false_iff_not, not_lt, strCmp]
  have h := memcmpChars_antisymm a.str.data b.str.data
  omega

theorem sortCases_sorted (l : List SCase) :
    List.Sorted (fun a b => caseLt b a = false) (sortCases l) := by
  have htot : IsTotal SCase (fun a b => caseLt b a = false) := by
    constructor
    intro a b
    rw [caseLt_false_iff, caseLt_false_iff]
    have h := memcmpChars_antisymm a.str.data b.str.data
    simp only [strCmp]
    omega
  have htr : IsTrans SCase (fun a b => caseLt b a = false) := by
    constructor
    intro a b c hab hbc
    rw [caseLt_false_iff] at hab hbc ⊢
    exact memcmpChars_le_trans _ _ _ hab hbc
  exact @List.sorted_insertionSort SCase (fun a b => caseLt b a = false) _ htot htr l

theorem sortedCaseArray_perm (strs : List String) :
    List.Perm (sortedCaseArray strs)
      (strs.enum.map (fun p => (⟨p.2, p.1⟩ : SCase))) :=
  List.perm_insertionSort _ _

theorem sortedCaseArray_length (strs : List String) :
    (sortedCaseArray strs).length = strs.length := by
  rw [(sortedCaseArray_perm strs).length_eq]
  simp

theorem mem_sortedCaseArray (strs : List String) (j : Nat) (hj : j < strs.length) :
    (⟨strs.getD j "", j⟩ : SCase) ∈ sortedCaseArray strs := by
  rw [(sortedCaseArray_perm strs).mem_iff]
  refine List.mem_map.mpr ⟨(j, strs.getD j ""), ?_, rfl⟩
  rw [List.mk_mem_enum_iff_getElem?]
  simp [List.getD_eq_getElem?_getD, List.getElem?_eq_getElem hj]

theorem sortedCaseArray_mem_charact (strs : List String) (c : SCase)
    (hc : c ∈ sortedCaseArray strs) :
    c.index < strs.length ∧ c.str = strs.getD c.index "" := by
  rw [(sortedCaseArray_perm strs).mem_iff] at hc
  obtain ⟨q, hq, hfq⟩ := List.mem_map.mp hc
  rw [List.mem_enum_iff_getElem?] at hq
  have hlt : q.1 < strs.length := by
    by_contra hge
    rw [List.getElem?_eq_none (by omega)] at hq
    exact Option.noConfusion hq
  refine ⟨?_, ?_⟩
  · rw [← hfq]
    exact hlt
  · rw [← hfq]
    show q.2 = strs.getD q.1 ""
    rw [List.getD_eq_getElem?_getD, hq]
    rfl

theorem sortedCaseArray_at_idx (strs : List String) (j : Nat) (hj : j < strs.length) :
    stringCaseIdx strs j < (sortedCaseArray strs).length ∧
    (sortedCaseArray strs)[stringCaseIdx strs j]?
      = some (⟨strs.getD j "", j⟩ : SCase) := by
  have hex : ∃ c ∈ sortedCaseArray strs, ((fun c : SCase => c.index == j) c) :=
    ⟨⟨strs.getD j "", j⟩, mem_sortedCaseArray strs j hj, by simp⟩
  have hi : stringCaseIdx strs j < (sortedCaseArray strs).length :=
    List.findIdx_lt_length_of_exists hex
  refine ⟨hi, ?_⟩
  rw [List.getElem?_eq_getElem hi]
  show some ((sortedCaseArray strs).get ⟨stringCaseIdx strs j, hi⟩) = _
  have hcm : (sortedCaseArray strs).get ⟨stringCaseIdx strs j, hi⟩ ∈ sortedCaseArray strs :=
    List.get_mem _ _ _
  obtain ⟨hlt, hstr⟩ := sortedCaseArray_mem_charact strs _ hcm
  have hidx : ((sortedCaseArray strs).get ⟨stringCaseIdx strs j, hi⟩).index = j := by
    have h2 := @List.findIdx_getElem _ (fun c : SCase => c.index == j)
      (sortedCaseArray strs) hi
    simp only [beq_iff_eq] at h2
    exact h2
  have he : (sortedCaseArray strs).get ⟨stringCaseIdx strs j, hi⟩
      = ⟨((sortedCaseArray strs).get ⟨stringCaseIdx strs j, hi⟩).str,
         ((sortedCaseArray strs).get ⟨stringCaseIdx strs j, hi⟩).index⟩ := rfl
  rw [he, hstr, hidx]

theorem stringCaseIdx_inj (strs : List String) (k j : Nat) (hk : k < strs.length)
    (hj : j < strs.length) (h : stringCaseIdx strs k = stringCaseIdx strs j) :
    k = j := by
  have h1 := (sortedCaseArray_at_idx strs k hk).2
  have h2 := (sortedCaseArray_at_idx strs j hj).2
  rw [h] at h1
  rw [h1] at h2
  have h3 : (⟨strs.getD k "", k⟩ : SCase) = ⟨strs.getD j "", j⟩ :=
    Option.some.inj h2
  exact congrArg SCase.index h3

theorem stringSwitchTable_at (strs : List String) (j : Nat) (hj : j < strs.length) :
    (stringSwitchTable strs).getD (stringCaseIdx strs j) "" = strs.getD j "" := by
  obtain ⟨hi, hat⟩ := sortedCaseArray_at_idx strs j hj
  show ((sortedCaseArray strs).map (fun c => c.str)).getD (stringCaseIdx strs j) "" = _
  rw [List.getD_eq_getElem?_getD, List.getElem?_map, hat]
  rfl

theorem stringSwitchTable_perm (strs : List String) :
    List.Perm (stringSwitchTable strs) strs := by
  have h2 := (sortedCaseArray_perm strs).map (fun c : SCase => c.str)
  rw [List.map_map] at h2
  have h3 : ((fun c : SCase => c.str) ∘ (fun p : Nat × String => (⟨p.2, p.1⟩ : SCase)))
      = Prod.snd := rfl
  rw [h3, List.enum_map_snd] at h2
  exact h2

theorem dSwitchString_table (strs : List String) (j : Nat) (hj : j < strs.length)
    (hnd : strs.Nodup) :
    dSwitchString (stringSwitchTable strs) (strs.getD j "")
      = (stringCaseIdx strs j : Int) := by
  have htlen : (stringSwitchTable strs).length = strs.length :=
    (stringSwitchTable_perm strs).length_eq
  have hi : stringCaseIdx strs j < (sortedCaseArray strs).length :=
    (sortedCaseArray_at_idx strs j hj).1
  have hi' : stringCaseIdx strs j < (stringSwitchTable strs).length := by
    rw [htlen, ← sortedCaseArray_length strs]
    exact hi
  have hatT : (stringSwitchTable strs).getD (stringCaseIdx strs j) ""
      = strs.getD j "" := stringSwitchTable_at strs j hj
  have hatT' : (stringSwitchTable strs).get ⟨stringCaseIdx strs j, hi'⟩
      = strs.getD j "" := by
    rw [← hatT, List.getD_eq_getElem?_getD, List.getElem?_eq_getElem hi']
    rfl
  have hndT : (stringSwitchTable strs).Nodup :=
    (stringSwitchTable_perm strs).nodup_iff.mpr hnd
  have hmem : strs.getD j "" ∈ stringSwitchTable strs := by
    rw [← hatT']
    exact List.get_mem _ _ _
  have hcont : (stringSwitchTable strs).contains (strs.getD j "") = true := by
    rw [List.contains_iff_exists_mem_beq]
    exact ⟨_, hmem, by simp⟩
  have hfi : (stringSwitchTable strs).findIdx (fun t => t == strs.getD j "")
      = stringCaseIdx strs j := by
    rw [List.findIdx_eq hi']
    refine ⟨?_, ?_⟩
    · show ((stringSwitchTable strs).get ⟨stringCaseIdx strs j, hi'⟩ == strs.getD j "")
        = true
      rw [hatT']
      simp
    · intro k hk
      show ((stringSwitchTable strs).get ⟨k, Nat.lt_trans hk hi'⟩ == strs.getD j "")
        = false
      rw [beq_eq_false_iff_ne]
      intro heq
      rw [← hatT'] at heq
      have := (List.Nodup.get_inj_iff hndT).mp heq
      have hkj : k = stringCaseIdx strs j := congrArg Fin.val this
      omega
  show (if (stringSwitchTable strs).contains (strs.getD j "")
      then ((stringSwitchTable strs).findIdx (fun t => t == strs.getD j "") : Int)
      else -1) = _
  rw [if_pos hcont, hfi]

theorem find_first_at {α : Type} (p : α → Bool) (l : List α) :
    ∀ i : Nat, ∀ h : i < l.length, p (l.get ⟨i, h⟩) = true →
      (∀ k, ∀ hk : k < i, p (l.get ⟨k, Nat.lt_trans hk h⟩) = false) →
      l.find? p = some (l.get ⟨i, h⟩) := by
  induction l with
  | nil =>
    intro i h
    exact absurd h (by simp)
  | cons a as ih =>
    intro i h hp hb
    cases i with
    | zero =>
      rw [List.find?_cons_of_pos _ (show p a from hp)]
      rfl
    | succ i' =>
      have ha : p a = false := hb 0 (Nat.succ_pos i')
      rw [List.find?_cons_of_neg _ (by simp [ha])]
      have hi' : i' < as.length := by
        simp only [List.length_cons] at h
        omega
      have := ih i' hi' hp (fun k hk => hb (k + 1) (Nat.succ_lt_succ hk))
      exact this

theorem stringSwitchPairs_length (cl : List (String × Nat)) :
    (stringSwitchPairs cl).length = cl.length := by
  show (cl.enum.map _).length = _
  simp

theorem stringSwitchPairs_at (cl : List (String × Nat)) (k : Nat)
    (hk : k < cl.length) :
    (stringSwitchPairs cl)[k]?
      = some ((stringCaseIdx (cl.map Prod.fst) k : Int), (cl.getD k ("", 0)).2) := by
  show (cl.enum.map
      (fun p => ((stringCaseIdx (cl.map Prod.fst) p.1 : Int), p.2.2)))[k]? = _
  rw [List.getElem?_map]
  have henum : cl.enum[k]? = some (k, cl.getD k ("", 0)) := by
    rw [List.getElem?_eq_getElem (show k < cl.enum.length from by simpa using hk)]
    rw [List.getElem_enum]
    rw [List.getD_eq_getElem?_getD, List.getElem?_eq_getElem hk]
    rfl
  rw [henum]
  rfl

/-- C6: for every string switch with pairwise-distinct case strings, the
case array is sorted lexicographically (by the memcmp-style comparison)
and handed to the runtime as a constant lookup table in that sorted
order; the dense index stored into case `j` is its position in the
sorted array, so the table entry at that index is exactly case `j`'s
string; the runtime search returns precisely that index for case `j`'s
string; and the multi-way branch on the returned index dispatches to
case `j`'s body block. -/
theorem c6_string_switch_dense_index (cl : List (String × Nat)) (j dflt : Nat)
    (hj : j < cl.length)
    (hnd : (cl.map Prod.fst).Nodup) :
    List.Pairwise (fun x y => strCmp x y ≤ 0) (stringSwitchTable (cl.map Prod.fst)) ∧
    List.Perm (stringSwitchTable (cl.map Prod.fst)) (cl.map Prod.fst) ∧
    (stringSwitchTable (cl.map Prod.fst)).getD
        (stringCaseIdx (cl.map Prod.fst) j) ""
      = (cl.map Prod.fst).getD j "" ∧
    dSwitchString (stringSwitchTable (cl.map Prod.fst))
        ((cl.map Prod.fst).getD j "")
      = (stringCaseIdx (cl.map Prod.fst) j : Int) ∧
    switchDest (dSwitchString (stringSwitchTable (cl.map Prod.fst))
        ((cl.map Prod.fst).getD j ""))
      (stringSwitchPairs cl) dflt
      = (cl.getD j ("", 0)).2 := by
  have hjs : j < (cl.map Prod.fst).length := by simpa using hj
  have hsorted : List.Pairwise (fun x y => strCmp x y ≤ 0)
      (stringSwitchTable (cl.map Prod.fst)) := by
    have hs := sortCases_sorted
      ((cl.map Prod.fst).enum.map (fun p => (⟨p.2, p.1⟩ : SCase)))
    exact List.Pairwise.map (fun c : SCase => c.str)
      (fun a b hab => (caseLt_false_iff a b).mp hab) hs
  have hperm : List.Perm (stringSwitchTable (cl.map Prod.fst)) (cl.map Prod.fst) :=
    stringSwitchTable_perm (cl.map Prod.fst)
  have hat : (stringSwitchTable (cl.map Prod.fst)).getD
      (stringCaseIdx (cl.map Prod.fst) j) "" = (cl.map Prod.fst).getD j "" :=
    stringSwitchTable_at _ j hjs
  have hds : dSwitchString (stringSwitchTable (cl.map Prod.fst))
      ((cl.map Prod.fst).getD j "") = (stringCaseIdx (cl.map Prod.fst) j : Int) :=
    dSwitchString_table _ j hjs hnd
  refine ⟨hsorted, hperm, hat, hds, ?_⟩
  rw [hds]
  have hjp : j < (stringSwitchPairs cl).length := by
    rw [stringSwitchPairs_length]
    exact hj
  have hpj : (stringSwitchPairs cl).get ⟨j, hjp⟩
      = ((stringCaseIdx (cl.map Prod.fst) j : Int), (cl.getD j ("", 0)).2) := by
    have := stringSwitchPairs_at cl j hj
    rw [List.getElem?_eq_getElem hjp] at this
    exact Option.some.inj this
  have hfind : (stringSwitchPairs cl).find?
      (fun q => q.1 == (stringCaseIdx (cl.map Prod.fst) j : Int))
      = some ((stringSwitchPairs cl).get ⟨j, hjp⟩) := by
    apply find_first_at _ _ j hjp
    · rw [hpj]
      simp
    · intro k hk
      have hkc : k < cl.length := by omega
      have hpk : (stringSwitchPairs cl).get ⟨k, Nat.lt_trans hk hjp⟩
          = ((stringCaseIdx (cl.map Prod.fst) k : Int), (cl.getD k ("", 0)).2) := by
        have := stringSwitchPairs_at cl k hkc
        rw [List.getElem?_eq_getElem (Nat.lt_trans hk hjp)] at this
        exact Option.some.inj this
      rw [hpk]
      show ((stringCaseIdx (cl.map Prod.fst) k : Int)
          == (stringCaseIdx (cl.map Prod.fst) j : Int)) = false
      rw [beq_eq_false_iff_ne]
      intro heq
      have hnn : stringCaseIdx (cl.map Prod.fst) k = stringCaseIdx (cl.map Prod.fst) j :=
        Int.ofNat.inj heq
      have := stringCaseIdx_inj (cl.map Prod.fst) k j (by simpa using hkc) hjs hnn
      omega
  show (match (stringSwitchPairs cl).find?
      (fun q => q.1 == (stringCaseIdx (cl.map Prod.fst) j : Int)) with
    | some p => p.2
    | none => dflt) = (cl.getD j ("", 0)).2
  rw [hfind, hpj]

theorem c6_witness :
    (0 < [("b", 10), ("a", 11), ("c", 12)].length ∧
      ([("b", 10), ("a", 11), ("c", 12)].map Prod.fst).Nodup) ∧
    stringSwitchTable ([("b", 10), ("a", 11), ("c", 12)].map Prod.fst)
      = ["a", "b", "c"] ∧
    stringCaseIdx ([("b", 10), ("a", 11), ("c", 12)].map Prod.fst) 0 = 1 ∧
    stringCaseIdx ([("b", 10), ("a", 11), ("c", 12)].map Prod.fst) 1 = 0 ∧
    stringCaseIdx ([("b", 10), ("a", 11), ("c", 12)].map Prod.fst) 2 = 2 ∧
    dSwitchString ["a", "b", "c"] "b" = 1 ∧
    switchDest (dSwitchString (stringSwitchTable ([("b", 10), ("a", 11), ("c", 12)].map
        Prod.fst)) (([("b", 10), ("a", 11), ("c", 12)].map Prod.fst).getD 0 ""))
      (stringSwitchPairs [("b", 10), ("a", 11), ("c", 12)]) 99 = 10 := by
  have h := c6_string_switch_dense_index [("b", 10), ("a", 11), ("c", 12)] 0 99
    (by decide) (by decide)
  exact ⟨⟨by decide, by decide⟩, by decide, by decide, by decide, by decide, by decide,
    h.2.2.2.2⟩

/-- C9: for every statement that the frontend should have rejected or
lowered before this stage — an OnScopeStatement, a bare Statement with
no lowering rule, or a PragmaStatement — lowering reports an
internal-compiler / not-implemented error and aborts fatally, never
producing a partial block graph for it; whereas an ImportStatement
lowers as a silent no-op emitting nothing. -/
theorem c9_fatal_unlowered_import_noop (s : St) :
    (∃ msg, visitOnScopeStatement s = .error msg) ∧
    (∀ s', visitOnScopeStatement s ≠ .ok s') ∧
    (∃ msg, visitStatementFallback s = .error msg) ∧
    (∀ s', visitStatementFallback s ≠ .ok s') ∧
    (∃ msg, visitPragmaStatement s = .error msg) ∧
    (∀ s', visitPragmaStatement s ≠ .ok s') ∧
    visitImport s = s :=
  ⟨⟨_, rfl⟩, fun _ h => Except.noConfusion h,
   ⟨_, rfl⟩, fun _ h => Except.noConfusion h,
   ⟨_, rfl⟩, fun _ h => Except.noConfusion h, rfl⟩

/-- C1 (failing evidence): lowering a goto-case or a goto-default while
one cleanup is pending emits a direct branch to the case/default body
block and runs no cleanup at all — the enclosing-handler processing is
disabled in the source — contradicting the claim that every pending
cleanup runs exactly once on a goto case / goto default path. -/
theorem c1_goto_case_default_skip_pending_cleanups :
    currentCleanupScope stCleanup = 1 ∧
    (visitGotoCase (some 1) stCleanup).2.trace = [] ∧
    (getBlock (visitGotoCase (some 1) stCleanup).2 0).terms = [.br 1] ∧
    (visitGotoDefault 1 stCleanup).trace = [] ∧
    (getBlock (visitGotoDefault 1 stCleanup) 0).terms = [.br 1] := by
  decide

/-- C10: when the current block is already terminated, a break statement
is ignored entirely — no cleanups run, no branch is emitted, no block is
opened, all lowering state is unchanged — while a continue statement
lowered in the same situation has no such guard: it still runs the
cleanups down to the targeted loop's depth, emits the branch to its
continue block, and opens a fresh block. -/
theorem c10_break_guarded_continue_unguarded (s : St) (t : LoopTarget) (c : Nat)
    (ident : Option Nat)
    (hterm : scopereturned s = true)
    (hfind : s.loopTargets.find? (fun u => u.continueBB.isSome) = some t)
    (hc : t.continueBB = some c) :
    visitBreak ident s = s ∧
    (visitContinue none s).trace
      = s.trace ++ (s.cleanups.take (s.cleanups.length - t.depth)).map
          (fun cl => Ev.runCleanup cl.id) ∧
    (visitContinue none s).blocks.length
      = s.blocks.length + (s.cleanups.length - t.depth) + 1 ∧
    (visitContinue none s).cur = s.blocks.length + (s.cleanups.length - t.depth) ∧
    getBlock (visitContinue none s) (visitContinue none s).cur = ⟨[], []⟩ ∧
    (getBlock (visitContinue none s)
        (if s.cleanups.length - t.depth = 0 then s.cur
         else s.blocks.length + (s.cleanups.length - t.depth) - 1)).terms.getLast?
      = some (.br c) := by
  have hlt : s.cur < s.blocks.length := scopereturned_imp_lt s hterm
  have hbrk : visitBreak ident s = s := by
    simp [visitBreak, hterm]
  have hcw : continueWithClosest s = runCleanups t.depth c s := by
    simp only [continueWithClosest, hfind, hc]
  have hvc : visitContinue none s
      = setScope (runCleanups t.depth c s).blocks.length
          (newBB (runCleanups t.depth c s)).2 := by
    rw [visitContinue]
    simp only [hcw]
    rfl
  obtain ⟨h1, h2, h3, h4, h5, h6, h7, h8, h9, h10⟩ := runCleanups_fields t.depth c s
  refine ⟨hbrk, ?_, ?_, ?_, ?_, ?_⟩
  · rw [hvc]
    show (runCleanups t.depth c s).trace = _
    exact h3
  · rw [hvc]
    show ((runCleanups t.depth c s).blocks ++ [(⟨[], []⟩ : BB)]).length = _
    simp [h1]
  · rw [hvc]
    show (runCleanups t.depth c s).blocks.length = _
    rw [h1]
  · rw [hvc]
    show ((runCleanups t.depth c s).blocks ++ [(⟨[], []⟩ : BB)]).getD
      (runCleanups t.depth c s).blocks.length (⟨[], []⟩ : BB) = _
    exact getD_append_len _ _ _
  · rw [hvc]
    have hidx : (if s.cleanups.length - t.depth = 0 then s.cur
        else s.blocks.length + (s.cleanups.length - t.depth) - 1)
        < (runCleanups t.depth c s).blocks.length := by
      rw [h1]
      by_cases hz : s.cleanups.length - t.depth = 0
      · simp only [hz, if_true]
        omega
      · simp only [hz, if_false]
        omega
    show ((getBlock (setScope _ (newBB (runCleanups t.depth c s)).2) _).terms).getLast? = _
    have : getBlock (setScope (runCleanups t.depth c s).blocks.length
        (newBB (runCleanups t.depth c s)).2)
        (if s.cleanups.length - t.depth = 0 then s.cur
         else s.blocks.length + (s.cleanups.length - t.depth) - 1)
        = getBlock (runCleanups t.depth c s)
          (if s.cleanups.length - t.depth = 0 then s.cur
           else s.blocks.length + (s.cleanups.length - t.depth) - 1) :=
      getBlock_newBB_lt _ _ hidx
    rw [this]
    exact runCleanups_lastBlock t.depth c s hlt

/-- Witness for C10 at a concrete terminated state with an active loop
target. -/
theorem c10_witness :
    scopereturned stTerm = true ∧
    stTerm.loopTargets.find? (fun u => u.continueBB.isSome)
      = some ⟨7, some 1, 2, 0⟩ ∧
    visitBreak none stTerm = stTerm ∧
    (getBlock (visitContinue none stTerm) 0).terms.getLast? = some (.br 1) :=
  ⟨by decide, by decide,
   (c10_break_guarded_continue_unguarded stTerm ⟨7, some 1, 2, 0⟩ 1 none
     (by decide) (by decide) (by decide)).1,
   (c10_break_guarded_continue_unguarded stTerm ⟨7, some 1, 2, 0⟩ 1 none
     (by decide) (by decide) (by decide)).2.2.2.2.2⟩

end LdcStatements
